import Mathlib

/-!
# Verification of the jcp model-adapter, tool and meeting core

This file gives a shallow embedding, in Lean 4, of the claim-relevant parts
of the jcp repository (a multi-provider conversational-model gateway with a
meeting orchestrator):

* `Genai` — the unified request/response data model (`genai.Part`,
  `genai.Content`, `model.LLMRequest`, `model.LLMResponse`).
* `Anthropic` — the Anthropic Messages adapter: request conversion
  (`toAnthropicRequest`, `toAnthropicMessages`), the SSE stream processor
  (`handleSSEEvent`, `handleDelta`, `emitFinalResponse`, `processStream`)
  and the non-streaming path (`generate`).
* `OpenAIResp` — the OpenAI Responses adapter stream processor
  (`processResponsesStream` and its event handlers).
* `Mcp` — the MCP tool manager (`GetToolsetsByIDs`, `GetToolInfosByServerIDs`)
  and the prefixed tool wrapper (`prefixedTool`).
* `Probe` — the system-role support probe (`DetectSystemRoleSupport`).
* `Meeting` — the per-topic cancel-then-replace registry of
  `SendMeetingMessage` / `cancelMeetingInternal`.

Go strings are modelled as Lean `String`, Go `map` values as association
lists (iteration-order independence is proved where the code relies on it),
Go JSON decoding of a data line as an explicit alphabet of parse outcomes,
and external JSON parsers as explicit function parameters.  Numeric token
counts are carried as unbounded `Int`; no claim inspects their arithmetic.
-/

namespace Genai

/-- Model of a decoded JSON object used for tool-call arguments
(`map[string]any` in Go): an association list of keys to opaque payloads. -/
def ArgsMap := List (String × String)
deriving DecidableEq, Repr

/-- The empty argument map (a fresh `make(map[string]any)`). -/
def emptyArgs : ArgsMap := ([] : List (String × String))

/-- `genai.FunctionCall`. -/
structure FunctionCall where
  id : String
  name : String
  args : ArgsMap
deriving DecidableEq, Repr

/-- `genai.FunctionResponse`; the response payload is carried opaquely. -/
structure FunctionResponse where
  id : String
  response : String
deriving DecidableEq, Repr

/-- `genai.Part`.  `thought` is the flag marking reasoning text. -/
structure Part where
  text : String := ""
  thought : Bool := false
  functionCall : Option FunctionCall := none
  functionResponse : Option FunctionResponse := none
deriving DecidableEq, Repr

/-- `genai.Content`: a role together with an ordered list of parts. -/
structure Content where
  role : String
  parts : List Part
deriving DecidableEq, Repr

/-- Token usage as reported in `genai.GenerateContentResponseUsageMetadata`. -/
structure UsageMetadata where
  promptTokenCount : Int
  candidatesTokenCount : Int
  totalTokenCount : Int
deriving DecidableEq, Repr

/-- `genai.FinishReason` (only the values the adapters produce). -/
inductive FinishReason where
  | stop
  | maxTokens
  | unspecified
deriving DecidableEq, Repr

/-- `genai.FunctionDeclaration` (schemas carried opaquely). -/
structure FunctionDeclaration where
  name : String
  description : String
  parametersJsonSchema : Option String := none
  parameters : Option String := none
  responseJsonSchema : Option String := none
deriving DecidableEq, Repr

/-- `genai.Tool`: a bundle of function declarations. -/
structure GTool where
  functionDeclarations : List FunctionDeclaration
deriving DecidableEq, Repr

/-- `genai.GenerateContentConfig` restricted to the fields the adapters read.
Numeric sampling parameters are carried opaquely as integers (the converters
only copy them). `maxOutputTokens` is Go `int32`, zero when unset. -/
structure GenerateContentConfig where
  systemInstruction : Option Content := none
  tools : List GTool := []
  temperature : Option Int := none
  topP : Option Int := none
  maxOutputTokens : Int := 0
  stopSequences : List String := []
deriving DecidableEq, Repr

/-- `model.LLMRequest`.  `contents` mirrors Go `[]*genai.Content`, where an
entry may be a nil pointer (`none`). -/
structure LLMRequest where
  contents : List (Option Content)
  config : Option GenerateContentConfig := none
deriving DecidableEq, Repr

/-- `model.LLMResponse`.  `incremental` models the Go `Partial` flag
(the Lean keyword forbids reusing that spelling). -/
structure LLMResponse where
  content : Content
  usageMetadata : Option UsageMetadata := none
  finishReason : FinishReason := .unspecified
  incremental : Bool := false
  turnComplete : Bool := false
deriving DecidableEq, Repr

end Genai

namespace Anthropic

open Genai

/-- `anthropic.Usage`. -/
structure Usage where
  inputTokens : Int
  outputTokens : Int
deriving DecidableEq, Repr

/-- `anthropic.ContentBlock` (the request/response wire block). -/
structure ContentBlock where
  type : String
  text : String := ""
  thinking : String := ""
  id : String := ""
  name : String := ""
  input : String := ""
  toolUseID : String := ""
  rawContent : String := ""
deriving DecidableEq, Repr

/-- `anthropic.Message`. -/
structure Message where
  role : String
  content : List ContentBlock
deriving DecidableEq, Repr

/-- `anthropic.Tool`. -/
structure Tool where
  name : String
  description : String
  inputSchema : String
deriving DecidableEq, Repr

/-- `anthropic.MessagesRequest` (the outgoing request body). -/
structure MessagesRequest where
  model : String
  messages : List Message := []
  system : String := ""
  maxTokens : Int
  temperature : Option Int := none
  topP : Option Int := none
  stream : Bool := false
  tools : List Tool := []
  stopSequences : List String := []
deriving DecidableEq, Repr

/-- `toToolResultContent`: the function-result payload is normalised to a
JSON string.  Marshalling of the opaque payload cannot fail in the model. -/
def toToolResultContent (resp : String) : String := resp

/-- `extractTextFromContent`: concatenate the non-thought text parts with
newlines (Go `strings.Join(texts, "\n")` over non-empty, non-thought texts). -/
def extractTextFromContent (content : Option Content) : String :=
  match content with
  | none => ""
  | some c =>
    let texts := (c.parts.filter (fun p => p.text ≠ "" && !p.thought)).map Part.text
    String.intercalate "\n" texts

/-- The blocks derived from one content's parts inside `toAnthropicMessages`:
thought parts are skipped, then text / tool_use / tool_result blocks are
appended for the non-empty fields of each part. -/
def blocksOfParts (parts : List Part) : List ContentBlock :=
  parts.foldr (fun part acc =>
    if part.thought then acc
    else
      (if part.text ≠ "" then [{ type := "text", text := part.text }] else []) ++
      (match part.functionCall with
       | some fc => [{ type := "tool_use", id := fc.id, name := fc.name }]
       | none => []) ++
      (match part.functionResponse with
       | some fr => [{ type := "tool_result", toolUseID := fr.id,
                       rawContent := toToolResultContent fr.response }]
       | none => []) ++ acc) []

/-- Append one converted turn to the accumulated message list, merging into
the final message when it has the same role (Go: `msgs[len(msgs)-1].Content =
append(...)` when the last role matches, else `append(msgs, ...)`). -/
def pushMessage : List Message → String → List ContentBlock → List Message
  | [], role, blocks => [⟨role, blocks⟩]
  | [m], role, blocks =>
    if m.role = role then [⟨m.role, m.content ++ blocks⟩] else [m, ⟨role, blocks⟩]
  | m :: m₂ :: ms, role, blocks => m :: pushMessage (m₂ :: ms) role blocks

/-- One iteration of the conversion loop of `toAnthropicMessages`: skip nil
contents, map role `model` to `assistant` and anything else to `user`, skip
turns that produce no blocks, and push the rest. -/
def convertStep (msgs : List Message) (content : Option Content) : List Message :=
  match content with
  | none => msgs
  | some c =>
    let role := if c.role = "model" then "assistant" else "user"
    let blocks := blocksOfParts c.parts
    if blocks = [] then msgs else pushMessage msgs role blocks

/-- `toAnthropicMessages`: convert the unified contents into Anthropic
messages, merging consecutive same-role messages. -/
def toAnthropicMessages (contents : List (Option Content)) : List Message :=
  contents.foldl convertStep []

/-- `convertTools`: flatten the function declarations, failing when a tool
has neither schema field set (`parameters is nil for tool ...`). -/
def convertTools (genaiTools : List GTool) : Except String (List Tool) :=
  genaiTools.foldr (fun gt acc => do
    let rest ← acc
    let here ← gt.functionDeclarations.foldr (fun fd facc => do
      let frest ← facc
      let schema :=
        match fd.parametersJsonSchema with
        | some s => some s
        | none => fd.parameters
      match schema with
      | none => Except.error ("parameters is nil for tool " ++ fd.name)
      | some s => Except.ok (({ name := fd.name, description := fd.description,
                                inputSchema := s } : Tool) :: frest)) (Except.ok [])
    Except.ok (here ++ rest)) (Except.ok [])

/-- `toAnthropicRequest`: build the outgoing Messages request.  `MaxTokens`
starts at the mandatory default 4096 and is overwritten only by a positive
configured `MaxOutputTokens`. -/
def toAnthropicRequest (req : LLMRequest) (modelName : String) :
    Except String MessagesRequest :=
  let system :=
    match req.config with
    | some cfg =>
      match cfg.systemInstruction with
      | some si => extractTextFromContent (some si)
      | none => ""
    | none => ""
  let msgs := toAnthropicMessages req.contents
  let toolsResult :=
    match req.config with
    | some cfg => if cfg.tools ≠ [] then convertTools cfg.tools else .ok []
    | none => .ok []
  match toolsResult with
  | .error e => .error e
  | .ok tools =>
    let base : MessagesRequest :=
      { model := modelName, maxTokens := 4096, system := system,
        messages := msgs, tools := tools }
    match req.config with
    | none => .ok base
    | some cfg =>
      .ok { base with
            temperature := cfg.temperature,
            maxTokens := if cfg.maxOutputTokens > 0 then cfg.maxOutputTokens else base.maxTokens,
            topP := cfg.topP,
            stopSequences := if cfg.stopSequences ≠ [] then cfg.stopSequences else [] }

end Anthropic

namespace Anthropic

open Genai

/-- `blockState`: the per-index builder accumulated during streaming. -/
structure blockState where
  blockType : String
  toolID : String := ""
  toolName : String := ""
  text : String := ""
  thinking : String := ""
  toolArgs : String := ""
deriving DecidableEq, Repr

/-- The delta payload of a `content_block_delta` event. -/
inductive DeltaKind where
  | textDelta (s : String)
  | thinkingDelta (s : String)
  | inputJsonDelta (s : String)
  | otherDelta
deriving DecidableEq, Repr

/-- One SSE data line as seen by `handleSSEEvent`: the event type together
with the outcome of JSON-decoding the data into the matching struct.  Each
`...Bad` constructor is a data line whose JSON decoding fails. -/
inductive SSEEvent where
  | messageStart (usage : Usage)
  | messageStartBad
  | contentBlockStart (index : Int) (btype toolID toolName : String)
  | contentBlockStartBad
  | contentBlockDelta (index : Int) (delta : DeltaKind)
  | contentBlockDeltaBad
  | contentBlockStop (index : Int)
  | messageDelta (stopReason : String) (usage : Option Usage)
  | messageDeltaBad
  | messageStop
  | errorEvent (etype emsg : String)
  | errorEventBad (raw : String)
  | ping
  | otherEvent
deriving DecidableEq, Repr

/-- The Go `map[int]*blockState`, as an association list; assignment
overwrites in place or appends. -/
def mapSet (m : List (Int × blockState)) (k : Int) (v : blockState) :
    List (Int × blockState) :=
  match m with
  | [] => [(k, v)]
  | (k₀, v₀) :: rest => if k₀ = k then (k, v) :: rest else (k₀, v₀) :: mapSet rest k v

/-- Lookup in the block map. -/
def mapGet : List (Int × blockState) → Int → Option blockState
  | [], _ => none
  | (k₀, v₀) :: rest, k => if k₀ = k then some v₀ else mapGet rest k

/-- The mutable locals of `processStream`: block builders, stop reason and
usage. -/
structure StreamState where
  blocks : List (Int × blockState) := []
  stopReason : String := ""
  usage : Option Usage := none
deriving DecidableEq, Repr

/-- Result of handling a single SSE event: an updated state plus the partial
responses yielded, or a terminating error. -/
inductive StepResult where
  | ok (s : StreamState) (out : List LLMResponse)
  | err (msg : String)
deriving DecidableEq, Repr

/-- A partial (incremental) response carrying one text or thought part. -/
def partialResp (text : String) (thought : Bool) : LLMResponse :=
  { content := { role := "model", parts := [{ text := text, thought := thought }] },
    incremental := true, turnComplete := false }

/-- `handleDelta`: process one `content_block_delta`.  Unknown indices and
undecodable payloads are ignored; text and thinking deltas are accumulated
and yielded as partial responses; `input_json_delta` only accumulates. -/
def handleDelta (s : StreamState) (index : Int) (delta : DeltaKind) : StepResult :=
  match mapGet s.blocks index with
  | none => .ok s []
  | some bs =>
    match delta with
    | .textDelta t =>
      .ok { s with blocks := mapSet s.blocks index { bs with text := bs.text ++ t } }
        [partialResp t false]
    | .thinkingDelta t =>
      .ok { s with blocks := mapSet s.blocks index { bs with thinking := bs.thinking ++ t } }
        [partialResp t true]
    | .inputJsonDelta j =>
      .ok { s with blocks := mapSet s.blocks index { bs with toolArgs := bs.toolArgs ++ j } } []
    | .otherDelta => .ok s []

/-- `handleSSEEvent`: dispatch one SSE event.  Decoding failures are ignored
(`return nil`), except on an explicit `error` event, which terminates with an
error either way. -/
def handleSSEEvent (s : StreamState) (e : SSEEvent) : StepResult :=
  match e with
  | .messageStart u => .ok { s with usage := some u } []
  | .messageStartBad => .ok s []
  | .contentBlockStart index btype toolID toolName =>
    let bs : blockState :=
      if btype = "tool_use" then
        { blockType := btype, toolID := toolID, toolName := toolName }
      else { blockType := btype }
    .ok { s with blocks := mapSet s.blocks index bs } []
  | .contentBlockStartBad => .ok s []
  | .contentBlockDelta index delta => handleDelta s index delta
  | .contentBlockDeltaBad => .ok s []
  | .contentBlockStop _ => .ok s []
  | .messageDelta stopReason usage =>
    .ok { s with stopReason := stopReason,
                 usage := match usage with | some u => some u | none => s.usage } []
  | .messageDeltaBad => .ok s []
  | .messageStop => .ok s []
  | .errorEvent etype emsg =>
    .err ("Anthropic API error: " ++ etype ++ " - " ++ emsg)
  | .errorEventBad raw => .err ("SSE error: " ++ raw)
  | .ping => .ok s []
  | .otherEvent => .ok s []

/-- `convertStopReason`. -/
def convertStopReason (reason : String) : FinishReason :=
  if reason = "end_turn" then .stop
  else if reason = "stop_sequence" then .stop
  else if reason = "max_tokens" then .maxTokens
  else if reason = "tool_use" then .stop
  else .unspecified

/-- `convertUsage`. -/
def convertUsage (u : Option Usage) : Option UsageMetadata :=
  match u with
  | none => none
  | some u =>
    some { promptTokenCount := u.inputTokens, candidatesTokenCount := u.outputTokens,
           totalTokenCount := u.inputTokens + u.outputTokens }

/-- The parts contributed by one finished block in `emitFinalResponse`.
`jsonParse` models `json.Unmarshal` of the accumulated tool arguments:
on failure (or when no arguments were accumulated) the map stays empty. -/
def blockToParts (jsonParse : String → Option ArgsMap) (bs : blockState) : List Part :=
  if bs.blockType = "thinking" then
    if bs.thinking ≠ "" then [{ text := bs.thinking, thought := true }] else []
  else if bs.blockType = "text" then
    if bs.text ≠ "" then [{ text := bs.text }] else []
  else if bs.blockType = "tool_use" then
    let args : ArgsMap :=
      if bs.toolArgs = "" then emptyArgs else (jsonParse bs.toolArgs).getD emptyArgs
    [{ functionCall := some { id := bs.toolID, name := bs.toolName, args := args } }]
  else []

/-- The key order used by `emitFinalResponse`: collect the map keys and sort
them (`sort.Ints`). -/
def sortedIndices (blocks : List (Int × blockState)) : List Int :=
  List.insertionSort (· ≤ ·) (blocks.map Prod.fst)

/-- The aggregated parts of `emitFinalResponse`: walk the block indices in
ascending order and append each block's parts. -/
def emitFinalParts (jsonParse : String → Option ArgsMap)
    (blocks : List (Int × blockState)) : List Part :=
  (sortedIndices blocks).foldr (fun idx acc =>
    (match mapGet blocks idx with
     | some bs => blockToParts jsonParse bs
     | none => []) ++ acc) []

/-- `emitFinalResponse`: the terminal aggregate built after the stream
closes. -/
def emitFinalResponse (jsonParse : String → Option ArgsMap) (s : StreamState) :
    LLMResponse :=
  { content := { role := "model", parts := emitFinalParts jsonParse s.blocks },
    usageMetadata := convertUsage s.usage,
    finishReason := convertStopReason s.stopReason,
    incremental := false, turnComplete := true }

/-- How the SSE scanner loop ends: normal end of body, a read error caused
by context cancellation, or another read error. -/
inductive StreamEnd where
  | eof
  | errCanceled
  | errRead (msg : String)
deriving DecidableEq, Repr

/-- The scanner loop of `processStream` over the decoded data lines: thread
the state, concatenate yielded partials, stop at the first handler error. -/
def runEvents (s : StreamState) : List SSEEvent →
    StreamState × List LLMResponse × Option String
  | [] => (s, [], none)
  | e :: es =>
    match handleSSEEvent s e with
    | .ok s₁ out =>
      match runEvents s₁ es with
      | (s₂, rest, err) => (s₂, out ++ rest, err)
    | .err m => (s, [], some m)

/-- The final state reached by the scanner loop. -/
def finalState (events : List SSEEvent) : StreamState :=
  (runEvents {} events).1

/-- `processStream` as the full sequence of `yield` calls: partial responses,
then — depending on how the loop and the scanner end — a terminating error,
nothing (read error caused by cancellation), or the terminal aggregate. -/
def processStream (jsonParse : String → Option ArgsMap)
    (events : List SSEEvent) (ending : StreamEnd) :
    List (Except String LLMResponse) :=
  match runEvents {} events with
  | (s, out, err) =>
    match err with
    | some m => out.map .ok ++ [.error m]
    | none =>
      match ending with
      | .eof => out.map .ok ++ [.ok (emitFinalResponse jsonParse s)]
      | .errCanceled => out.map .ok
      | .errRead m => out.map .ok ++ [.error ("SSE 读取错误: " ++ m)]

/-- Model of a (non-streaming) `MessagesResponse` body and HTTP outcome for
`generate`: a transport error, a body read error, or a status with a decoded
or undecodable body. -/
inductive GenHTTP where
  | netErr (msg : String)
  | readErr (msg : String)
  | resp (status : Nat) (body : Except String (List ContentBlock × String × Usage))
deriving Repr

/-- `convertAnthropicResponse`: assemble the non-streaming terminal
aggregate. -/
def convertAnthropicResponse (jsonParse : String → Option ArgsMap)
    (content : List ContentBlock) (stopReason : String) (usage : Usage) :
    LLMResponse :=
  { content :=
      { role := "model",
        parts := content.foldr (fun block acc =>
          (if block.type = "text" then
            if block.text ≠ "" then [{ text := block.text }] else []
          else if block.type = "thinking" then
            if block.thinking ≠ "" then [{ text := block.thinking, thought := true }] else []
          else if block.type = "tool_use" then
            let args : ArgsMap :=
              if block.input = "" then emptyArgs
              else (jsonParse block.input).getD emptyArgs
            [{ functionCall := some ⟨block.id, block.name, args⟩ }]
          else []) ++ acc) [] },
    usageMetadata := convertUsage (some usage),
    finishReason := convertStopReason stopReason,
    incremental := false, turnComplete := true }

/-- `generate` (non-streaming): the sequence of `yield` calls.  Request
conversion errors, transport errors, read errors, non-200 statuses and
undecodable bodies each yield one error; otherwise exactly one terminal
aggregate is yielded. -/
def generate (jsonParse : String → Option ArgsMap) (req : LLMRequest)
    (modelName : String) (http : GenHTTP) : List (Except String LLMResponse) :=
  match toAnthropicRequest req modelName with
  | .error e => [.error e]
  | .ok _ =>
    match http with
    | .netErr m => [.error m]
    | .readErr m => [.error ("read response: " ++ m)]
    | .resp status body =>
      if status ≠ 200 then [.error ("HTTP error")]
      else
        match body with
        | .error m => [.error ("unmarshal response: " ++ m)]
        | .ok (blocks, stopReason, usage) =>
          [.ok (convertAnthropicResponse jsonParse blocks stopReason usage)]

end Anthropic

namespace OpenAIResp

open Genai

/-- `responsesToolCallBuilder`: accumulates one streamed function call. -/
structure toolCallBuilder where
  itemID : String
  callID : String
  name : String
  args : String := ""
deriving DecidableEq, Repr

/-- One segment produced by the think-tag stream parser (`thinkSegment`). -/
structure thinkSegment where
  text : String
  thought : Bool
deriving DecidableEq, Repr

/-- One vendor-convention inline tool call parsed out of terminal text. -/
structure VendorCall where
  name : String
  args : ArgsMap
deriving DecidableEq, Repr

/-- One SSE data line of the Responses stream as seen by the dispatch
`switch`: the event type together with the outcome of JSON-decoding the
data.  `...Bad` constructors are lines whose decoding fails (logged and
ignored). -/
inductive RespEvent where
  | textDelta (delta : String)
  | textDeltaBad
  | funcArgsDelta (itemID delta : String)
  | funcArgsDeltaBad
  | itemAdded (itemType id callID name : String)
  | itemAddedBad
  | itemDone (itemType id callID name arguments : String)
  | itemDoneBad
  | completed (usage : Option UsageMetadata)
  | completedBad
  | otherEvent
deriving DecidableEq, Repr

/-- The Go `map[string]*responsesToolCallBuilder`, as an association list. -/
def mapSet (m : List (String × toolCallBuilder)) (k : String) (v : toolCallBuilder) :
    List (String × toolCallBuilder) :=
  match m with
  | [] => [(k, v)]
  | (k₀, v₀) :: rest => if k₀ = k then (k, v) :: rest else (k₀, v₀) :: mapSet rest k v

/-- Lookup in the builder map. -/
def mapGet : List (String × toolCallBuilder) → String → Option toolCallBuilder
  | [], _ => none
  | (k₀, v₀) :: rest, k => if k₀ = k then some v₀ else mapGet rest k

/-- The mutable locals of `processResponsesStream`, parameterised by the
think-tag parser's private state `σ`. -/
structure RespState (σ : Type) where
  textContent : String := ""
  thoughtContent : String := ""
  toolCallsMap : List (String × toolCallBuilder) := []
  toolCallOrder : List String := []
  usageMetadata : Option UsageMetadata := none
  parserState : σ

/-- `emitTextSegments`: accumulate each non-empty segment into the text or
thought buffer and yield it as a partial response.  Returns the updated
buffers and the yielded responses. -/
def emitTextSegments (textContent thoughtContent : String)
    (segments : List thinkSegment) : String × String × List LLMResponse :=
  match segments with
  | [] => (textContent, thoughtContent, [])
  | seg :: rest =>
    if seg.text = "" then emitTextSegments textContent thoughtContent rest
    else
      let text₁ := if seg.thought then textContent else textContent ++ seg.text
      let thought₁ := if seg.thought then thoughtContent ++ seg.text else thoughtContent
      match emitTextSegments text₁ thought₁ rest with
      | (t, th, out) =>
        (t, th, ({ content := { role := "model",
                                parts := [{ text := seg.text, thought := seg.thought }] },
                   incremental := true, turnComplete := false } : LLMResponse) :: out)

section
variable {σ : Type} (feed : σ → String → σ × List thinkSegment)

/-- Dispatch one Responses SSE event (the body of the scanner loop). -/
def stepEvent (s : RespState σ) (e : RespEvent) : RespState σ × List LLMResponse :=
  match e with
  | .textDelta d =>
    match feed s.parserState d with
    | (ps, segs) =>
      match emitTextSegments s.textContent s.thoughtContent segs with
      | (t, th, out) =>
        ({ s with parserState := ps, textContent := t, thoughtContent := th }, out)
  | .textDeltaBad => (s, [])
  | .funcArgsDelta itemID d =>
    match mapGet s.toolCallsMap itemID with
    | some b =>
      ({ s with toolCallsMap := mapSet s.toolCallsMap itemID { b with args := b.args ++ d } }, [])
    | none => (s, [])
  | .funcArgsDeltaBad => (s, [])
  | .itemAdded itemType id callID name =>
    if itemType = "function_call" then
      ({ s with toolCallsMap := mapSet s.toolCallsMap id
                  { itemID := id, callID := callID, name := name },
                toolCallOrder := s.toolCallOrder ++ [id] }, [])
    else (s, [])
  | .itemAddedBad => (s, [])
  | .itemDone itemType id callID name arguments =>
    if itemType = "function_call" then
      match mapGet s.toolCallsMap id with
      | some b =>
        let b₁ := { b with callID := callID, name := name,
                           args := if arguments ≠ "" then arguments else b.args }
        ({ s with toolCallsMap := mapSet s.toolCallsMap id b₁ }, [])
      | none =>
        ({ s with toolCallsMap := mapSet s.toolCallsMap id
                    { itemID := id, callID := callID, name := name, args := arguments },
                  toolCallOrder := s.toolCallOrder ++ [id] }, [])
    else (s, [])
  | .itemDoneBad => (s, [])
  | .completed usage =>
    match usage with
    | some u => ({ s with usageMetadata := some u }, [])
    | none => (s, [])
  | .completedBad => (s, [])
  | .otherEvent => (s, [])

/-- The scanner loop: thread the state over all delivered lines,
concatenating yielded partial responses. -/
def runResp (s : RespState σ) : List RespEvent → RespState σ × List LLMResponse
  | [] => (s, [])
  | e :: es =>
    match stepEvent feed s e with
    | (s₁, out) =>
      match runResp s₁ es with
      | (s₂, rest) => (s₂, out ++ rest)

variable (flush : σ → List thinkSegment)
variable (parseVendorToolCalls : String → List VendorCall × String)
variable (parseJSONArgs : String → ArgsMap)

/-- The standard (non-vendor) tool-call parts appended to the terminal
aggregate: walk `toolCallOrder` in insertion order and emit each builder. -/
def standardToolCallParts (s : RespState σ) : List Part :=
  s.toolCallOrder.foldr (fun id acc =>
    (match mapGet s.toolCallsMap id with
     | some b => [{ functionCall := some ⟨b.callID, b.name, parseJSONArgs b.args⟩ }]
     | none => []) ++ acc) []

/-- The text-derived parts of the terminal aggregate: when terminal text is
present, parse out vendor-convention inline tool calls, keep the residual
text (if non-empty) and append the vendor calls with synthesised ids. -/
def vendorTextParts (textContent : String) : List Part :=
  if textContent = "" then []
  else
    match parseVendorToolCalls textContent with
    | (vendorCalls, cleanedText) =>
      (if cleanedText ≠ "" then [{ text := cleanedText }] else []) ++
      (vendorCalls.enum.map (fun vc =>
        { functionCall := some ⟨"vendor_call_" ++ toString vc.1, vc.2.name, vc.2.args⟩ }))

/-- `processResponsesStream` as the full sequence of `yield` calls.  Any
scanner read error — cancellation included — is yielded as an error; on a
normal end the think-parser is flushed (yielding trailing partials) and the
terminal aggregate is assembled: optional thought part first, then residual
text, vendor calls, and the standard tool calls in insertion order. -/
def processResponsesStream (s₀ : σ) (events : List RespEvent)
    (ending : Anthropic.StreamEnd) : List (Except String LLMResponse) :=
  match runResp feed { parserState := s₀ } events with
  | (s, out) =>
    match ending with
    | .errCanceled => out.map .ok ++ [.error "SSE 流读取错误"]
    | .errRead m => out.map .ok ++ [.error ("SSE 流读取错误: " ++ m)]
    | .eof =>
      match emitTextSegments s.textContent s.thoughtContent (flush s.parserState) with
      | (t, th, out₂) =>
        let parts :=
          (if th ≠ "" then [({ text := th, thought := true } : Part)] else []) ++
          (vendorTextParts parseVendorToolCalls t ++
            standardToolCallParts parseJSONArgs s)
        let finalResp : LLMResponse :=
          { content := { role := "model", parts := parts },
            usageMetadata := s.usageMetadata,
            finishReason := .stop, incremental := false, turnComplete := true }
        out.map .ok ++ out₂.map .ok ++ [.ok finalResp]

end

/-- Specification of first-seen insertion order for function-call items,
written as a direct scan over the event list: an `output_item.added` for a
function call always appends its item id, and an `output_item.done` appends
it only when the id has not been seen before. -/
def firstSeenOrder (seen : List String) : List RespEvent → List String
  | [] => []
  | .itemAdded itemType id _ _ :: es =>
    if itemType = "function_call" then id :: firstSeenOrder (id :: seen) es
    else firstSeenOrder seen es
  | .itemDone itemType id _ _ _ :: es =>
    if itemType = "function_call" then
      if id ∈ seen then firstSeenOrder seen es
      else id :: firstSeenOrder (id :: seen) es
    else firstSeenOrder seen es
  | _ :: es => firstSeenOrder seen es

end OpenAIResp

namespace Mcp

open Genai

/-- `models.MCPServerConfig` restricted to the fields the manager reads. -/
structure MCPServerConfig where
  id : String
  name : String
  enabled : Bool := true
deriving DecidableEq, Repr

/-- `mcp.ToolInfo`. -/
structure ToolInfo where
  name : String
  description : String
  serverID : String
  serverName : String
deriving DecidableEq, Repr

/-- Lookup in the manager's `configs` map. -/
def configGet : List (String × MCPServerConfig) → String → Option MCPServerConfig
  | [], _ => none
  | (k₀, v₀) :: rest, k => if k₀ = k then some v₀ else configGet rest k

/-- The per-request `configs` map built by `GetToolsetsByIDs` collapses
duplicate ids; this lists the requested ids with first occurrences kept. -/
def dedupIds : List String → List String
  | [] => []
  | x :: xs => x :: (dedupIds xs).filter (fun y => y ≠ x)

section
variable {TS : Type}

/-- `GetToolsetsByIDs`: look every requested id up in the configs map, then
create a fresh toolset per matched config, skipping (and logging) the ones
whose creation fails.  `create` models `createToolset`, whose outcome depends
on the external MCP endpoint. -/
def GetToolsetsByIDs (create : MCPServerConfig → Except String TS)
    (configs : List (String × MCPServerConfig)) (ids : List String) : List TS :=
  let matched := (dedupIds ids).foldr (fun id acc =>
    match configGet configs id with
    | some cfg => (id, cfg) :: acc
    | none => acc) []
  matched.foldr (fun m acc =>
    match create m.2 with
    | .ok ts => ts :: acc
    | .error _ => acc) []

end

/-- `GetToolInfosByServerIDs`: fetch each server's tools in request order,
skipping (and logging) servers whose fetch fails.  `fetch` models
`GetServerTools`, whose outcome depends on the external MCP endpoint. -/
def GetToolInfosByServerIDs (fetch : String → Except String (List ToolInfo))
    (serverIDs : List String) : List ToolInfo :=
  serverIDs.foldr (fun id acc =>
    (match fetch id with
     | .ok tools => tools
     | .error _ => []) ++ acc) []

/-- The wrapped inner tool of a `prefixedTool`: its name, and its declaration
when the inner tool implements the function-tool interface. -/
structure InnerTool where
  name : String
  description : String
  declaration : Option FunctionDeclaration := none
deriving DecidableEq, Repr

/-- `prefixedTool`: wraps an inner tool with a provider prefix (`pfx` is the
Go field spelled `prefix`, a reserved word in Lean). -/
structure prefixedTool where
  inner : InnerTool
  pfx : String
deriving DecidableEq, Repr

/-- `prefixedTool.Name`: `p.prefix + ":" + p.inner.Name()`. -/
def prefixedTool.Name (p : prefixedTool) : String :=
  p.pfx ++ ":" ++ p.inner.name

/-- `prefixedTool.Declaration`: re-emit the inner declaration under the
prefixed name (or `none` when the inner tool has no declaration). -/
def prefixedTool.Declaration (p : prefixedTool) : Option FunctionDeclaration :=
  match p.inner.declaration with
  | none => none
  | some decl =>
    some { name := p.Name, description := decl.description,
           parametersJsonSchema := decl.parametersJsonSchema,
           responseJsonSchema := decl.responseJsonSchema }

/-- Modelled from the spec: invocation is routed back to the original tool
"by stripping the prefix internally" — remove the provider label and the
`:` separator from the front of a prefixed name.  (The stripping step is not
under `src/`; in the shipped code the wrapper routes by identity instead.) -/
def stripProviderPrefix (label s : String) : String :=
  String.mk (s.data.drop (label.length + 1))

end Mcp

namespace Probe

/-- `systemRoleProbeKeyword`: the unguessable probe token. -/
def systemRoleProbeKeyword : String := "SYS_PROBE_7X3K"

/-- `strings.Contains`. -/
def strContains (s sub : String) : Bool := decide (sub.data <:+: s.data)

/-- Outcome of `doProbeRequest`: a transport failure, or a status code with
the (truncated) response body. -/
inductive ProbeOutcome where
  | netErr (msg : String)
  | resp (status : Nat) (body : String)
deriving DecidableEq, Repr

/-- `DetectSystemRoleSupport` (returns `true` when the backend must be
downgraded, i.e. does NOT support the system role).  Non-OpenAI providers
support the channel natively.  `extract` models `extractReplyText`, the
JSON extraction of the reply text from the response body. -/
def DetectSystemRoleSupport (providerIsOpenAI : Bool)
    (extract : String → String) (outcome : ProbeOutcome) : Bool :=
  if !providerIsOpenAI then false
  else
    match outcome with
    | .netErr _ => false
    | .resp status body =>
      if status ≠ 200 then true
      else if strContains (extract body) systemRoleProbeKeyword then false
      else true

end Probe

namespace Meeting

/-- The observable actions of one `SendMeetingMessage` invocation, in
program order. -/
inductive Action where
  | cancelToken (tokenID : Nat)
  | registerToken (stock : String) (tokenID : Nat)
  | removeRegistry (stock : String)
  | addUserMessage (stock : String)
  | providerCall (stock : String)
  | emitMessage (stock : String)
deriving DecidableEq, Repr

/-- The app's meeting bookkeeping: the `meetingCancels` registry mapping a
stock code to its live cancellation token, the cancellation flag of every
created token, and a fresh-token counter. -/
structure AppState where
  meetingCancels : List (String × Nat) := []
  canceledTokens : List Nat := []
  nextTokenID : Nat := 0
deriving DecidableEq, Repr

/-- Registry lookup. -/
def lookupRegistry (st : AppState) (stock : String) : Option Nat :=
  (st.meetingCancels.find? (fun e => e.1 = stock)).map Prod.snd

/-- Registry removal (`delete(a.meetingCancels, stockCode)`). -/
def removeRegistry (st : AppState) (stock : String) : AppState :=
  { st with meetingCancels := st.meetingCancels.filter (fun e => e.1 ≠ stock) }

/-- Whether a token's context has been cancelled. -/
def tokenCanceled (st : AppState) (tokenID : Nat) : Bool :=
  st.canceledTokens.contains tokenID

/-- `cancelMeetingInternal`: under the registry mutex, trigger the stored
cancel function for the stock (if any) and delete its registry entry. -/
def cancelMeetingInternal (st : AppState) (stock : String) :
    AppState × List Action :=
  match lookupRegistry st stock with
  | some tokenID =>
    ({ removeRegistry st stock with
       canceledTokens := tokenID :: st.canceledTokens,
       nextTokenID := st.nextTokenID },
     [.cancelToken tokenID])
  | none => (st, [])

/-- The state after the prologue of `SendMeetingMessage`: the prior meeting
(if any) cancelled and deregistered, and a fresh cancellable context
registered for the stock.  This is the state the meeting body runs in. -/
def bodyStartState (st : AppState) (stock : String) : AppState :=
  let st₁ := (cancelMeetingInternal st stock).1
  { st₁ with meetingCancels := (stock, st₁.nextTokenID) :: st₁.meetingCancels.filter (fun e => e.1 ≠ stock),
             nextTokenID := st₁.nextTokenID + 1 }

/-- `SendMeetingMessage`: the sequential trace of one invocation.  When the
session is missing the call returns before touching the registry.  Otherwise
the prior meeting for the stock is cancelled, a fresh context is registered,
the user message is stored, and — when an AI config resolves — the meeting
body (`runSmartMeeting` / `runDirectMeeting`, which issues every provider
call) runs; the deferred cleanup then drops the registry entry. -/
def SendMeetingMessage (runMeeting : AppState → List Action)
    (st : AppState) (stock : String) (sessionExists hasAIConfig : Bool) :
    AppState × List Action :=
  if !sessionExists then (st, [])
  else
    let cancelActs := (cancelMeetingInternal st stock).2
    let st₂ := bodyStartState st stock
    let prologue := cancelActs ++
      [.registerToken stock ((cancelMeetingInternal st stock).1.nextTokenID),
       .addUserMessage stock]
    if !hasAIConfig then
      (removeRegistry st₂ stock, prologue ++ [.removeRegistry stock])
    else
      (removeRegistry st₂ stock,
       prologue ++ runMeeting st₂ ++ [.removeRegistry stock])

end Meeting

/-! ## Theorems -/

section ClaimC4

open Mcp

theorem prefixedTool_name_data (p : prefixedTool) :
    p.Name.data = p.pfx.data ++ ':' :: p.inner.name.data := by
  show (p.pfx ++ ":" ++ p.inner.name).data = _
  rw [String.data_append, String.data_append]
  simp

theorem stripProviderPrefix_data (label : String) (l : List Char) :
    stripProviderPrefix label (String.mk (label.data ++ ':' :: l)) = String.mk l := by
  unfold stripProviderPrefix
  have h₁ : label.data ++ ':' :: l = (label.data ++ [':']) ++ l :=
    List.append_cons label.data ':' l
  have h₂ : label.length + 1 = (label.data ++ [':']).length := by
    rw [List.length_append]
    rfl
  simp only [h₁, h₂]
  rw [List.drop_left]

end ClaimC4

/-- **C4.** Tool-name prefixing is bijective: stripping the applied prefix
from `prefixedTool.Name` recovers the inner tool's name exactly; two
wrappers with the same inner tool name but different provider prefixes never
produce the same prefixed name; and `Declaration().Name` always equals
`Name()`. -/
theorem claim_C4_prefix_bijective :
    (∀ p : Mcp.prefixedTool,
      Mcp.stripProviderPrefix p.pfx p.Name = p.inner.name) ∧
    (∀ p₁ p₂ : Mcp.prefixedTool,
      p₁.inner.name = p₂.inner.name → p₁.pfx ≠ p₂.pfx → p₁.Name ≠ p₂.Name) ∧
    (∀ (p : Mcp.prefixedTool) (d : Genai.FunctionDeclaration),
      p.Declaration = some d → d.name = p.Name) := by
  refine ⟨?_, ?_, ?_⟩
  · intro p
    have hdata : p.Name = String.mk (p.pfx.data ++ ':' :: p.inner.name.data) :=
      String.ext (prefixedTool_name_data p)
    rw [hdata, stripProviderPrefix_data]
  · intro p₁ p₂ hname hpfx heq
    apply hpfx
    have hd := congrArg String.data heq
    rw [prefixedTool_name_data, prefixedTool_name_data, hname] at hd
    have hlen : p₁.pfx.data.length = p₂.pfx.data.length := by
      have := congrArg List.length hd
      simp only [List.length_append, List.length_cons] at this
      omega
    exact String.ext (List.append_inj hd hlen).1
  · intro p d h
    unfold Mcp.prefixedTool.Declaration at h
    cases hdecl : p.inner.declaration with
    | none => rw [hdecl] at h; exact absurd h (by simp)
    | some decl =>
      rw [hdecl] at h
      cases h
      rfl

/-- Witness for C4 at a concrete wrapper. -/
theorem claim_C4_witness :
    (⟨⟨"get_price", "d", some { name := "get_price", description := "d" }⟩,
      "yahoo"⟩ : Mcp.prefixedTool).Declaration =
        some { name := "yahoo:get_price", description := "d" } ∧
    ({ name := "yahoo:get_price", description := "d" } : Genai.FunctionDeclaration).name =
      (⟨⟨"get_price", "d", some { name := "get_price", description := "d" }⟩,
        "yahoo"⟩ : Mcp.prefixedTool).Name := by
  constructor
  · rfl
  · exact claim_C4_prefix_bijective.2.2
      ⟨⟨"get_price", "d", some { name := "get_price", description := "d" }⟩, "yahoo"⟩
      { name := "yahoo:get_price", description := "d" } (by rfl)

/-- **C6.** The system-role probe: a transport failure of the probe request
never downgrades; a non-200 status always downgrades; with a 200 status the
backend is reported as supporting the system role exactly when the extracted
reply text contains the probe token. -/
theorem claim_C6_system_role_probe :
    ∀ (extract : String → String) (status : Nat) (body msg : String),
      Probe.DetectSystemRoleSupport true extract (.netErr msg) = false ∧
      (status ≠ 200 →
        Probe.DetectSystemRoleSupport true extract (.resp status body) = true) ∧
      (Probe.DetectSystemRoleSupport true extract (.resp 200 body) = false ↔
        Probe.strContains (extract body) Probe.systemRoleProbeKeyword = true) := by
  intro extract status body msg
  refine ⟨rfl, ?_, ?_⟩
  · intro h
    simp [Probe.DetectSystemRoleSupport, h]
  · by_cases h : Probe.strContains (extract body) Probe.systemRoleProbeKeyword = true <;>
      simp [Probe.DetectSystemRoleSupport, h]

/-- Witness for C6 at concrete probe outcomes. -/
theorem claim_C6_witness :
    Probe.DetectSystemRoleSupport true id (.netErr "timeout") = false ∧
    Probe.DetectSystemRoleSupport true id (.resp 404 "nope") = true ∧
    Probe.DetectSystemRoleSupport true id (.resp 200 "ok SYS_PROBE_7X3K") = false := by
  refine ⟨(claim_C6_system_role_probe id 404 "nope" "timeout").1,
          (claim_C6_system_role_probe id 404 "nope" "timeout").2.1 (by decide),
          ((claim_C6_system_role_probe id 404 "ok SYS_PROBE_7X3K" "timeout").2.2).mpr
            (by decide)⟩

/-- **C9.** The Anthropic request converter sets `max_tokens` to the
configured positive `MaxOutputTokens` when present, and to the default 4096
otherwise (config absent or non-positive value); the outgoing request always
carries a positive `max_tokens`. -/
theorem claim_C9_max_tokens :
    ∀ (req : Genai.LLMRequest) (modelName : String) (ar : Anthropic.MessagesRequest),
      Anthropic.toAnthropicRequest req modelName = .ok ar →
      (ar.maxTokens =
        match req.config with
        | some cfg => if cfg.maxOutputTokens > 0 then cfg.maxOutputTokens else 4096
        | none => 4096) ∧
      0 < ar.maxTokens := by
  intro req modelName ar h
  cases hc : req.config with
  | none =>
    simp [Anthropic.toAnthropicRequest, hc] at h
    subst h
    exact ⟨rfl, by norm_num⟩
  | some cfg =>
    by_cases ht : cfg.tools = []
    · simp [Anthropic.toAnthropicRequest, hc, ht] at h
      subst h
      constructor
      · rfl
      · by_cases hm : cfg.maxOutputTokens > 0 <;> simp [hm]
    · cases hcv : Anthropic.convertTools cfg.tools with
      | error e => simp [Anthropic.toAnthropicRequest, hc, ht, hcv] at h
      | ok tools =>
        simp [Anthropic.toAnthropicRequest, hc, ht, hcv] at h
        subst h
        constructor
        · rfl
        · by_cases hm : cfg.maxOutputTokens > 0 <;> simp [hm]

/-- Witness for C9 at two concrete requests (unset and explicit budgets). -/
theorem claim_C9_witness :
    (({ model := "m", maxTokens := 4096 } : Anthropic.MessagesRequest).maxTokens = 4096 ∧
      (0:Int) < ({ model := "m", maxTokens := 4096 } : Anthropic.MessagesRequest).maxTokens) ∧
    (({ model := "m", maxTokens := 2048 } : Anthropic.MessagesRequest).maxTokens = 2048 ∧
      (0:Int) < ({ model := "m", maxTokens := 2048 } : Anthropic.MessagesRequest).maxTokens) := by
  constructor
  · exact claim_C9_max_tokens { contents := [], config := none } "m"
      { model := "m", maxTokens := 4096 } (by rfl)
  · exact claim_C9_max_tokens
      { contents := [], config := some { maxOutputTokens := 2048 } } "m"
      { model := "m", maxTokens := 2048 } (by rfl)

section ClaimC8

open Mcp

theorem mem_dedupIds (l : List String) (x : String) : x ∈ dedupIds l ↔ x ∈ l := by
  induction l with
  | nil => simp [dedupIds]
  | cons a l ih =>
    simp only [dedupIds, List.mem_cons, List.mem_filter]
    by_cases hx : x = a
    · simp [hx]
    · simp [hx, ih]

theorem mem_matchedFold (configs : List (String × MCPServerConfig))
    (l : List String) (id : String) (cfg : MCPServerConfig) :
    (id, cfg) ∈ l.foldr (fun i acc =>
        match configGet configs i with
        | some c => (i, c) :: acc
        | none => acc) [] ↔
      id ∈ l ∧ configGet configs id = some cfg := by
  induction l with
  | nil => simp
  | cons a l ih =>
    cases hg : configGet configs a with
    | none =>
      simp only [List.foldr_cons, hg, List.mem_cons]
      rw [ih]
      constructor
      · exact fun h => ⟨Or.inr h.1, h.2⟩
      · rintro ⟨h | h, hc⟩
        · rw [h] at hc; rw [hc] at hg; exact absurd hg (by simp)
        · exact ⟨h, hc⟩
    | some c =>
      simp only [List.foldr_cons, hg, List.mem_cons]
      constructor
      · rintro (h | h)
        · obtain ⟨h₁, h₂⟩ := Prod.mk.injEq .. ▸ h
          refine ⟨Or.inl h₁, ?_⟩
          rw [h₁, hg, h₂]
      
        · exact ⟨Or.inr (ih.mp h).1, (ih.mp h).2⟩
      · rintro ⟨h | h, hc⟩
        · subst h
          rw [hg] at hc
          cases hc
          exact Or.inl rfl
        · exact Or.inr (ih.mpr ⟨h, hc⟩)

theorem mem_createFold {TS : Type} (create : MCPServerConfig → Except String TS)
    (l : List (String × MCPServerConfig)) (ts : TS) :
    (ts ∈ l.foldr (fun m acc =>
        match create m.2 with
        | .ok t => t :: acc
        | .error _ => acc) []) ↔
      ∃ m ∈ l, create m.2 = .ok ts := by
  induction l with
  | nil => simp
  | cons a l ih =>
    cases hc : create a.2 with
    | error e =>
      simp only [List.foldr_cons, hc]
      rw [ih]
      constructor
      · rintro ⟨m, hm, h⟩
        exact ⟨m, List.mem_cons_of_mem a hm, h⟩
      · rintro ⟨m, hm, h⟩
        rcases List.mem_cons.mp hm with h₁ | h₁
        · rw [h₁] at h; rw [h] at hc; exact absurd hc (by simp)
        · exact ⟨m, h₁, h⟩
    | ok t =>
      simp only [List.foldr_cons, hc, List.mem_cons]
      constructor
      · rintro (h | h)
        · exact ⟨a, Or.inl rfl, by rw [hc, h]⟩
        · obtain ⟨m, hm, hok⟩ := ih.mp h
          exact ⟨m, Or.inr hm, hok⟩
      · rintro ⟨m, hm, hok⟩
        rcases hm with h₁ | h₁
        · subst h₁
          rw [hc] at hok
          cases hok
          exact Or.inl rfl
        · exact Or.inr (ih.mpr ⟨m, h₁, hok⟩)

theorem mem_fetchFold (fetch : String → Except String (List ToolInfo))
    (serverIDs : List String) (t : ToolInfo) :
    t ∈ GetToolInfosByServerIDs fetch serverIDs ↔
      ∃ id ∈ serverIDs, ∃ tools, fetch id = .ok tools ∧ t ∈ tools := by
  unfold GetToolInfosByServerIDs
  induction serverIDs with
  | nil => simp
  | cons a l ih =>
    cases hf : fetch a with
    | error e =>
      simp only [List.foldr_cons, hf, List.nil_append]
      rw [ih]
      constructor
      · rintro ⟨id, hid, tools, h⟩
        exact ⟨id, List.mem_cons_of_mem a hid, tools, h⟩
      · rintro ⟨id, hid, tools, hok, hmem⟩
        rcases List.mem_cons.mp hid with h₁ | h₁
        · rw [h₁] at hok; rw [hok] at hf; exact absurd hf (by simp)
        · exact ⟨id, h₁, tools, hok, hmem⟩
    | ok tools =>
      simp only [List.foldr_cons, hf, List.mem_append, List.mem_cons]
      constructor
      · rintro (h | h)
        · exact ⟨a, Or.inl rfl, tools, hf, h⟩
        · obtain ⟨id, hid, ts, hok, hmem⟩ := ih.mp h
          exact ⟨id, Or.inr hid, ts, hok, hmem⟩
      · rintro ⟨id, hid, ts, hok, hmem⟩
        rcases hid with h₁ | h₁
        · subst h₁
          rw [hf] at hok
          cases hok
          exact Or.inl hmem
        · exact Or.inr (ih.mpr ⟨id, h₁, ts, hok, hmem⟩)

end ClaimC8

/-- **C8.** A single tool provider's failure is isolated: the toolsets
returned by `GetToolsetsByIDs` are exactly those of the requested and
configured providers whose creation succeeded, and the tool infos returned
by `GetToolInfosByServerIDs` are exactly those of the servers whose fetch
succeeded — one provider's failure never removes the others' results or
fails the fetch (both functions are total). -/
theorem claim_C8_provider_failure_isolated :
    (∀ {TS : Type} (create : Mcp.MCPServerConfig → Except String TS)
        (configs : List (String × Mcp.MCPServerConfig)) (ids : List String) (ts : TS),
      ts ∈ Mcp.GetToolsetsByIDs create configs ids ↔
        ∃ id cfg, id ∈ ids ∧ Mcp.configGet configs id = some cfg ∧
          create cfg = .ok ts) ∧
    (∀ (fetch : String → Except String (List Mcp.ToolInfo))
        (serverIDs : List String) (t : Mcp.ToolInfo),
      t ∈ Mcp.GetToolInfosByServerIDs fetch serverIDs ↔
        ∃ id ∈ serverIDs, ∃ tools, fetch id = .ok tools ∧ t ∈ tools) := by
  constructor
  · intro TS create configs ids ts
    unfold Mcp.GetToolsetsByIDs
    rw [mem_createFold]
    constructor
    · rintro ⟨m, hm, hok⟩
      obtain ⟨hid, hcfg⟩ := (mem_matchedFold configs (Mcp.dedupIds ids) m.1 m.2).mp hm
      exact ⟨m.1, m.2, (mem_dedupIds ids m.1).mp hid, hcfg, hok⟩
    · rintro ⟨id, cfg, hid, hcfg, hok⟩
      exact ⟨(id, cfg),
        (mem_matchedFold configs (Mcp.dedupIds ids) id cfg).mpr
          ⟨(mem_dedupIds ids id).mpr hid, hcfg⟩, hok⟩
  · exact mem_fetchFold


section ClaimC2

open Genai Anthropic

/-- Two messages have different roles (the alternation relation a strict
user/assistant backend requires between adjacent messages). -/
def MsgRoleNe (m₁ m₂ : Anthropic.Message) : Prop := m₁.role ≠ m₂.role

theorem pushMessage_head_role (m : Message) (ms : List Message)
    (role : String) (blocks : List ContentBlock) :
    ∃ c cs, pushMessage (m :: ms) role blocks = c :: cs ∧ c.role = m.role := by
  cases ms with
  | nil =>
    by_cases h : m.role = role
    · exact ⟨⟨m.role, m.content ++ blocks⟩, [], by simp [pushMessage, h], rfl⟩
    · exact ⟨m, [⟨role, blocks⟩], by simp [pushMessage, h], rfl⟩
  | cons m₂ ms => exact ⟨m, pushMessage (m₂ :: ms) role blocks, rfl, rfl⟩

theorem chain'_pushMessage :
    ∀ (ms : List Message) (role : String) (blocks : List ContentBlock),
      List.Chain' MsgRoleNe ms → List.Chain' MsgRoleNe (pushMessage ms role blocks)
  | [], role, blocks, _ => by simp [pushMessage]
  | [m], role, blocks, _ => by
    by_cases h : m.role = role
    · simp [pushMessage, h]
    · simp only [pushMessage, h, if_neg h]
      exact List.chain'_cons.mpr ⟨h, List.chain'_singleton _⟩
  | m :: m₂ :: ms, role, blocks, hch => by
    obtain ⟨hR, hch₂⟩ := List.chain'_cons.mp hch
    have ih := chain'_pushMessage (m₂ :: ms) role blocks hch₂
    obtain ⟨c, cs, heq, hrole⟩ := pushMessage_head_role m₂ ms role blocks
    show List.Chain' MsgRoleNe (m :: pushMessage (m₂ :: ms) role blocks)
    rw [heq] at ih ⊢
    exact List.chain'_cons.mpr ⟨by rw [MsgRoleNe, hrole]; exact hR, ih⟩

theorem chain'_convertStep (msgs : List Message) (content : Option Genai.Content)
    (h : List.Chain' MsgRoleNe msgs) :
    List.Chain' MsgRoleNe (convertStep msgs content) := by
  cases content with
  | none => exact h
  | some c =>
    unfold convertStep
    by_cases hb : blocksOfParts c.parts = []
    · simp [hb, h]
    · simp only [hb, if_neg hb]
      exact chain'_pushMessage msgs _ _ h

theorem chain'_foldl_convertStep :
    ∀ (contents : List (Option Genai.Content)) (msgs : List Message),
      List.Chain' MsgRoleNe msgs →
      List.Chain' MsgRoleNe (contents.foldl convertStep msgs)
  | [], _, h => h
  | c :: cs, msgs, h =>
    chain'_foldl_convertStep cs (convertStep msgs c) (chain'_convertStep msgs c h)

end ClaimC2

/-- **C2.** The message list produced by the Anthropic converter never
contains two adjacent messages with the same role: consecutive same-role
turns (also those made adjacent by skipped nil/empty turns) are merged into
one message before transmission. -/
theorem claim_C2_same_role_turns_merged (contents : List (Option Genai.Content)) :
    List.Chain' MsgRoleNe (Anthropic.toAnthropicMessages contents) :=
  chain'_foldl_convertStep contents [] List.chain'_nil

section ClaimC7

open Genai Anthropic

/-- Drop every thought-flagged part from one (possibly nil) turn. -/
def eraseThoughtContent (content : Option Genai.Content) : Option Genai.Content :=
  content.map (fun c => { c with parts := c.parts.filter (fun p => !p.thought) })

/-- Drop every thought-flagged part from each turn of a conversation. -/
def eraseThoughtParts (contents : List (Option Genai.Content)) :
    List (Option Genai.Content) :=
  contents.map eraseThoughtContent

/-- The updated builder of a `thinking_delta` (`bs.thinking += delta`). -/
def appendThinking (bs : Anthropic.blockState) (t : String) : Anthropic.blockState :=
  { bs with thinking := bs.thinking ++ t }

theorem blocksOfParts_filter_thought (parts : List Genai.Part) :
    blocksOfParts (parts.filter (fun p => !p.thought)) = blocksOfParts parts := by
  induction parts with
  | nil => rfl
  | cons p ps ih =>
    by_cases h : p.thought
    · simp [blocksOfParts, List.filter_cons, h] at ih ⊢
      exact ih
    · simp only [List.filter_cons, h, Bool.not_false, if_pos] at ih ⊢
      simp [blocksOfParts, h] at ih ⊢
      rw [ih]

theorem convertStep_eraseThought (msgs : List Message)
    (content : Option Genai.Content) :
    convertStep msgs (eraseThoughtContent content) = convertStep msgs content := by
  cases content with
  | none => rfl
  | some c =>
    show convertStep msgs (some { c with parts := c.parts.filter (fun p => !p.thought) }) =
      convertStep msgs (some c)
    unfold convertStep
    simp only [blocksOfParts_filter_thought]

theorem foldl_convertStep_eraseThought :
    ∀ (contents : List (Option Genai.Content)) (msgs : List Message),
      (eraseThoughtParts contents).foldl convertStep msgs =
        contents.foldl convertStep msgs
  | [], _ => rfl
  | c :: cs, msgs => by
    show (eraseThoughtParts cs).foldl convertStep
        (convertStep msgs (eraseThoughtContent c)) = _
    rw [convertStep_eraseThought, foldl_convertStep_eraseThought cs]
    rfl

end ClaimC7

/-- **C7.** Thought parts never reach a follow-up provider request: the
Anthropic converter produces the same message list whether or not the
history contains thought-flagged parts (they are skipped), while thought
text arriving from the provider is surfaced flagged as thought — a
`thinking_delta` is yielded as a partial response whose single part has
`thought = true`, and a finished `thinking` block becomes a thought part of
the terminal aggregate. -/
theorem claim_C7_thought_parts_excluded :
    (∀ contents : List (Option Genai.Content),
      Anthropic.toAnthropicMessages (eraseThoughtParts contents) =
        Anthropic.toAnthropicMessages contents) ∧
    (∀ (s : Anthropic.StreamState) (index : Int) (t : String)
        (bs : Anthropic.blockState),
      Anthropic.mapGet s.blocks index = some bs →
      (Anthropic.handleDelta s index (.thinkingDelta t) =
          .ok { s with blocks := Anthropic.mapSet s.blocks index (appendThinking bs t) }
            [Anthropic.partialResp t true] ∧
        (Anthropic.partialResp t true).content.parts = [{ text := t, thought := true }] ∧
        (Anthropic.partialResp t true).incremental = true)) ∧
    (∀ (jsonParse : String → Option Genai.ArgsMap) (bs : Anthropic.blockState),
      bs.blockType = "thinking" → bs.thinking ≠ "" →
      Anthropic.blockToParts jsonParse bs = [{ text := bs.thinking, thought := true }]) := by
  refine ⟨?_, ?_, ?_⟩
  · intro contents
    exact foldl_convertStep_eraseThought contents []
  · intro s index t bs h
    refine ⟨?_, rfl, rfl⟩
    simp [Anthropic.handleDelta, h, Anthropic.partialResp, appendThinking]
  · intro jsonParse bs h₁ h₂
    simp [Anthropic.blockToParts, h₁, h₂]

/-- Witness for C7 at a concrete delta and block. -/
theorem claim_C7_witness :
    (Anthropic.handleDelta
        { blocks := [(0, { blockType := "thinking" })] } 0 (.thinkingDelta "hmm") =
      .ok { blocks := [(0, appendThinking { blockType := "thinking" } "hmm")] }
        [Anthropic.partialResp "hmm" true]) ∧
    Anthropic.blockToParts (fun _ => none) { blockType := "thinking", thinking := "hmm" } =
      [{ text := "hmm", thought := true }] := by
  constructor
  · exact (claim_C7_thought_parts_excluded.2.1
      { blocks := [(0, { blockType := "thinking" })] } 0 "hmm"
      { blockType := "thinking" } (by rfl)).1
  · exact claim_C7_thought_parts_excluded.2.2 (fun _ => none)
      { blockType := "thinking", thinking := "hmm" } (by rfl) (by decide)

/-- **C3.** Starting a new query for a stock with a live meeting cancels the
prior meeting first: the invocation's trace begins with triggering the prior
token (registry entry removed, fresh token registered), the state the
meeting body starts in has the prior token cancelled and a different token
registered, and every provider call in the trace is preceded by the
cancellation of the prior token. -/
theorem claim_C3_prior_meeting_cancelled_first :
    ∀ (runMeeting : Meeting.AppState → List Meeting.Action)
      (st : Meeting.AppState) (stock : String) (tid : Nat),
      Meeting.lookupRegistry st stock = some tid →
      tid < st.nextTokenID →
      ((Meeting.SendMeetingMessage runMeeting st stock true true).2 =
          .cancelToken tid :: .registerToken stock st.nextTokenID ::
            .addUserMessage stock ::
            (runMeeting (Meeting.bodyStartState st stock) ++
              [.removeRegistry stock])) ∧
      Meeting.tokenCanceled (Meeting.bodyStartState st stock) tid = true ∧
      Meeting.lookupRegistry (Meeting.bodyStartState st stock) stock =
        some st.nextTokenID ∧
      st.nextTokenID ≠ tid ∧
      (∀ (pre post : List Meeting.Action) (s₂ : String),
        (Meeting.SendMeetingMessage runMeeting st stock true true).2 =
          pre ++ .providerCall s₂ :: post →
        Meeting.Action.cancelToken tid ∈ pre) := by
  intro runMeeting st stock tid h hlt
  have htrace : (Meeting.SendMeetingMessage runMeeting st stock true true).2 =
      Meeting.Action.cancelToken tid ::
        Meeting.Action.registerToken stock st.nextTokenID ::
        Meeting.Action.addUserMessage stock ::
        (runMeeting (Meeting.bodyStartState st stock) ++
          [Meeting.Action.removeRegistry stock]) := by
    simp [Meeting.SendMeetingMessage, Meeting.cancelMeetingInternal, h]
  have hcancel : Meeting.cancelMeetingInternal st stock =
      ({ meetingCancels := st.meetingCancels.filter (fun e => e.1 ≠ stock),
         canceledTokens := tid :: st.canceledTokens,
         nextTokenID := st.nextTokenID }, [.cancelToken tid]) := by
    unfold Meeting.cancelMeetingInternal
    rw [h]
    rfl
  refine ⟨htrace, ?_, ?_, ?_, ?_⟩
  · simp [Meeting.bodyStartState, hcancel, Meeting.tokenCanceled]
  · simp [Meeting.bodyStartState, hcancel, Meeting.lookupRegistry]
  · omega
  · intro pre post s₂ heq
    rw [htrace] at heq
    cases pre with
    | nil => simp at heq
    | cons a pre₂ =>
      have ha : a = Meeting.Action.cancelToken tid := by
        have h₂ := congrArg List.head? heq
        simp at h₂
        exact h₂.symm
      rw [ha]
      exact List.mem_cons_self _ _

/-- Witness for C3 at a concrete registry and meeting body. -/
theorem claim_C3_witness :
    (Meeting.SendMeetingMessage (fun _ => [.providerCall "AAA"])
        { meetingCancels := [("AAA", 0)], nextTokenID := 1 } "AAA" true true).2 =
      .cancelToken 0 :: .registerToken "AAA" 1 :: .addUserMessage "AAA" ::
        ([.providerCall "AAA"] ++ [.removeRegistry "AAA"]) ∧
    Meeting.tokenCanceled
      (Meeting.bodyStartState
        { meetingCancels := [("AAA", 0)], nextTokenID := 1 } "AAA") 0 = true := by
  have h := claim_C3_prior_meeting_cancelled_first (fun _ => [.providerCall "AAA"])
    { meetingCancels := [("AAA", 0)], nextTokenID := 1 } "AAA" 0 (by rfl) (by decide)
  exact ⟨h.1, h.2.1⟩

section ClaimC1

open Genai Anthropic

/-- Key order on block-map entries (compare the Go map's `int` keys). -/
def blockKeyLE (a b : Int × Anthropic.blockState) : Prop := a.1 ≤ b.1

/-- Strict key order on block-map entries. -/
def blockKeyLT (a b : Int × Anthropic.blockState) : Prop := a.1 < b.1

instance : DecidableRel blockKeyLE :=
  fun a b => inferInstanceAs (Decidable (a.1 ≤ b.1))

instance : IsTotal (Int × Anthropic.blockState) blockKeyLE :=
  ⟨fun a b => le_total a.1 b.1⟩

instance : IsTrans (Int × Anthropic.blockState) blockKeyLE :=
  ⟨fun _ _ _ h₁ h₂ => le_trans h₁ h₂⟩

instance : IsAntisymm (Int × Anthropic.blockState) blockKeyLT :=
  ⟨fun a _ h₁ h₂ => absurd (lt_trans h₁ h₂) (lt_irrefl a.1)⟩

/-- The block map entries sorted by key, the canonical emission order. -/
def sortBlocks (blocks : List (Int × Anthropic.blockState)) :
    List (Int × Anthropic.blockState) :=
  List.insertionSort blockKeyLE blocks

theorem mem_keys_mapSet (m : List (Int × blockState)) (k : Int) (v : blockState)
    (x : Int) :
    x ∈ (mapSet m k v).map Prod.fst ↔ x ∈ m.map Prod.fst ∨ x = k := by
  induction m with
  | nil => simp [mapSet]
  | cons e m ih =>
    rcases e with ⟨k₀, v₀⟩
    by_cases h : k₀ = k
    · simp [mapSet, h]
      tauto
    · simp [mapSet, h, ih]
      tauto

theorem nodup_keys_mapSet (m : List (Int × blockState)) (k : Int) (v : blockState)
    (h : (m.map Prod.fst).Nodup) : ((mapSet m k v).map Prod.fst).Nodup := by
  induction m with
  | nil => simp [mapSet]
  | cons e m ih =>
    rcases e with ⟨k₀, v₀⟩
    simp only [List.map_cons, List.nodup_cons] at h
    by_cases hk : k₀ = k
    · subst hk
      have hstep : mapSet ((k₀, v₀) :: m) k₀ v = (k₀, v) :: m := by
        simp [mapSet]
      rw [hstep]
      simp only [List.map_cons, List.nodup_cons]
      exact ⟨h.1, h.2⟩
    · have hstep : mapSet ((k₀, v₀) :: m) k v = (k₀, v₀) :: mapSet m k v := by
        simp [mapSet, hk]
      rw [hstep]
      simp only [List.map_cons, List.nodup_cons]
      refine ⟨?_, ih h.2⟩
      rw [mem_keys_mapSet]
      rintro (hc | hc)
      · exact h.1 hc
      · exact hk hc

theorem mapGet_eq_some_of_mem (m : List (Int × blockState)) (k : Int)
    (v : blockState) (hnd : (m.map Prod.fst).Nodup) (hmem : (k, v) ∈ m) :
    mapGet m k = some v := by
  induction m with
  | nil => cases hmem
  | cons e m ih =>
    rcases e with ⟨k₀, v₀⟩
    simp only [List.map_cons, List.nodup_cons] at hnd
    rcases List.mem_cons.mp hmem with h | h
    · have hk : k = k₀ := congrArg Prod.fst h
      have hv : v = v₀ := congrArg Prod.snd h
      subst hk
      subst hv
      simp [mapGet]
    · have hk : k₀ ≠ k := by
        intro hc
        apply hnd.1
        rw [hc]
        exact List.mem_map.mpr ⟨(k, v), h, rfl⟩
      simp only [mapGet, hk, if_neg hk]
      exact ih hnd.2 h

theorem sorted_keys_sortBlocks (blocks : List (Int × blockState)) :
    ((sortBlocks blocks).map Prod.fst).Sorted (· ≤ ·) :=
  List.Pairwise.map Prod.fst (fun _ _ h => h)
    (List.sorted_insertionSort blockKeyLE blocks)

theorem perm_sortBlocks (blocks : List (Int × blockState)) :
    blocks.Perm (sortBlocks blocks) :=
  (List.perm_insertionSort blockKeyLE blocks).symm

theorem sortedIndices_eq_keys_sortBlocks (blocks : List (Int × blockState)) :
    sortedIndices blocks = (sortBlocks blocks).map Prod.fst := by
  have hperm : (sortedIndices blocks).Perm ((sortBlocks blocks).map Prod.fst) :=
    (List.perm_insertionSort (· ≤ ·) (blocks.map Prod.fst)).trans
      ((perm_sortBlocks blocks).map Prod.fst)
  have hs₁ : (sortedIndices blocks).Sorted (· ≤ ·) :=
    List.sorted_insertionSort (· ≤ ·) (blocks.map Prod.fst)
  have hs₂ := sorted_keys_sortBlocks blocks
  exact List.eq_of_perm_of_sorted hperm hs₁ hs₂

theorem strict_sorted_keys_sortBlocks (blocks : List (Int × blockState))
    (hnd : (blocks.map Prod.fst).Nodup) :
    ((sortBlocks blocks).map Prod.fst).Sorted (· < ·) := by
  have hnd₂ : ((sortBlocks blocks).map Prod.fst).Nodup :=
    (((perm_sortBlocks blocks).map Prod.fst).nodup_iff).mp hnd
  have hle := sorted_keys_sortBlocks blocks
  have hne : ((sortBlocks blocks).map Prod.fst).Pairwise (fun a b => a ≠ b) := hnd₂
  exact (hle.and hne).imp (fun h => lt_of_le_of_ne h.1 h.2)

theorem foldr_keys_lookup (jsonParse : String → Option ArgsMap)
    (blocks : List (Int × blockState)) :
    ∀ (l : List (Int × blockState)),
      (∀ e ∈ l, mapGet blocks e.1 = some e.2) →
      (l.map Prod.fst).foldr (fun idx acc =>
          (match mapGet blocks idx with
           | some bs => blockToParts jsonParse bs
           | none => []) ++ acc) [] =
        l.foldr (fun e acc => blockToParts jsonParse e.2 ++ acc) []
  | [], _ => rfl
  | e :: l, h => by
    simp only [List.map_cons, List.foldr_cons]
    rw [h e (List.mem_cons_self e l),
      foldr_keys_lookup jsonParse blocks l (fun x hx => h x (List.mem_cons_of_mem e hx))]

theorem emitFinalParts_eq_sorted (jsonParse : String → Option ArgsMap)
    (blocks : List (Int × blockState)) (hnd : (blocks.map Prod.fst).Nodup) :
    emitFinalParts jsonParse blocks =
      (sortBlocks blocks).foldr (fun e acc => blockToParts jsonParse e.2 ++ acc) [] := by
  unfold emitFinalParts
  rw [sortedIndices_eq_keys_sortBlocks]
  exact foldr_keys_lookup jsonParse blocks (sortBlocks blocks) (fun e he =>
    mapGet_eq_some_of_mem blocks e.1 e.2 hnd
      ((perm_sortBlocks blocks).symm.subset he))

theorem sortBlocks_sorted_strict (blocks : List (Int × blockState))
    (hnd : (blocks.map Prod.fst).Nodup) :
    (sortBlocks blocks).Sorted blockKeyLT := by
  have hle : (sortBlocks blocks).Sorted blockKeyLE := List.sorted_insertionSort _ _
  have hne : (sortBlocks blocks).Pairwise (fun a c => a.1 ≠ c.1) := by
    have h₂ : ((sortBlocks blocks).map Prod.fst).Nodup :=
      (((perm_sortBlocks blocks).map Prod.fst).nodup_iff).mp hnd
    exact (List.pairwise_map).mp h₂
  exact (hle.and hne).imp (fun h => lt_of_le_of_ne h.1 h.2)

theorem sortBlocks_eq_of_perm (b₁ b₂ : List (Int × blockState))
    (hnd : (b₁.map Prod.fst).Nodup) (hperm : b₁.Perm b₂) :
    sortBlocks b₁ = sortBlocks b₂ := by
  have hnd₂ : (b₂.map Prod.fst).Nodup := ((hperm.map Prod.fst).nodup_iff).mp hnd
  refine List.eq_of_perm_of_sorted ?_ (sortBlocks_sorted_strict b₁ hnd)
    (sortBlocks_sorted_strict b₂ hnd₂)
  exact (perm_sortBlocks b₁).symm.trans (hperm.trans (perm_sortBlocks b₂))

end ClaimC1

section ClaimC1

open Genai Anthropic

theorem handleSSEEvent_nodup (s : StreamState) (e : SSEEvent) (s₁ : StreamState)
    (out : List LLMResponse) (h : handleSSEEvent s e = .ok s₁ out)
    (hnd : (s.blocks.map Prod.fst).Nodup) : (s₁.blocks.map Prod.fst).Nodup := by
  cases e with
  | contentBlockStart index btype toolID toolName =>
    cases h
    exact nodup_keys_mapSet s.blocks index _ hnd
  | contentBlockDelta index delta =>
    replace h : handleDelta s index delta = .ok s₁ out := h
    unfold handleDelta at h
    cases hm : mapGet s.blocks index with
    | none =>
      rw [hm] at h
      cases h
      exact hnd
    | some bs =>
      rw [hm] at h
      cases delta <;> cases h <;>
        first
          | exact nodup_keys_mapSet s.blocks index _ hnd
          | exact hnd
  | messageStart u => cases h; exact hnd
  | messageStartBad => cases h; exact hnd
  | contentBlockStartBad => cases h; exact hnd
  | contentBlockDeltaBad => cases h; exact hnd
  | contentBlockStop i => cases h; exact hnd
  | messageDelta sr u => cases h; exact hnd
  | messageDeltaBad => cases h; exact hnd
  | messageStop => cases h; exact hnd
  | ping => cases h; exact hnd
  | otherEvent => cases h; exact hnd
  | errorEvent t m => cases h
  | errorEventBad r => cases h

theorem runEvents_nodup :
    ∀ (events : List SSEEvent) (s : StreamState),
      (s.blocks.map Prod.fst).Nodup →
      (((runEvents s events).1).blocks.map Prod.fst).Nodup
  | [], s, hnd => hnd
  | e :: es, s, hnd => by
    cases hse : handleSSEEvent s e with
    | ok s₁ out =>
      simp only [runEvents, hse]
      cases hrec : runEvents s₁ es with
      | mk s₂ rest =>
        have := runEvents_nodup es s₁ (handleSSEEvent_nodup s e s₁ out hse hnd)
        rw [hrec] at this
        exact this
    | err m =>
      simp only [runEvents, hse]
      exact hnd

theorem finalState_nodup (events : List SSEEvent) :
    ((finalState events).blocks.map Prod.fst).Nodup :=
  runEvents_nodup events {} (by simp)

end ClaimC1

section ClaimC1

open Genai OpenAIResp

theorem isSome_mapGetS_mapSetS (m : List (String × toolCallBuilder)) (k : String)
    (v : toolCallBuilder) (x : String) :
    (OpenAIResp.mapGet (OpenAIResp.mapSet m k v) x).isSome = true ↔
      x = k ∨ (OpenAIResp.mapGet m x).isSome = true := by
  induction m with
  | nil =>
    simp only [OpenAIResp.mapSet, OpenAIResp.mapGet]
    by_cases h : k = x
    · simp [h]
    · simp [h]
      exact fun hc => h hc.symm
  | cons e m ih =>
    rcases e with ⟨k₀, v₀⟩
    by_cases hk : k₀ = k
    · subst hk
      have hstep : OpenAIResp.mapSet ((k₀, v₀) :: m) k₀ v = (k₀, v) :: m := by
        simp [OpenAIResp.mapSet]
      rw [hstep]
      by_cases hx : k₀ = x
      · simp [OpenAIResp.mapGet, hx]
      · simp [OpenAIResp.mapGet, hx]
        exact fun hc => absurd hc.symm hx
    · have hstep : OpenAIResp.mapSet ((k₀, v₀) :: m) k v =
          (k₀, v₀) :: OpenAIResp.mapSet m k v := by
        simp [OpenAIResp.mapSet, hk]
      rw [hstep]
      by_cases hx : k₀ = x
      · simp [OpenAIResp.mapGet, hx]
      · simp [OpenAIResp.mapGet, hx, ih]

theorem firstSeenOrder_congr :
    ∀ (events : List RespEvent) (s₁ s₂ : List String),
      (∀ x, x ∈ s₁ ↔ x ∈ s₂) →
      firstSeenOrder s₁ events = firstSeenOrder s₂ events
  | [], _, _, _ => rfl
  | e :: es, s₁, s₂, h => by
    cases e with
    | itemAdded ty id c n =>
      by_cases ht : ty = "function_call"
      · simp only [firstSeenOrder, ht, if_pos]
        rw [firstSeenOrder_congr es (id :: s₁) (id :: s₂) (by simp [h])]
      · simp only [firstSeenOrder, ht, if_neg ht]
        exact firstSeenOrder_congr es s₁ s₂ h
    | itemDone ty id c n a =>
      by_cases ht : ty = "function_call"
      · simp only [firstSeenOrder, ht, if_pos]
        by_cases hmem : id ∈ s₂
        · rw [if_pos ((h id).mpr hmem), if_pos hmem]
          exact firstSeenOrder_congr es s₁ s₂ h
        · rw [if_neg (fun hc => hmem ((h id).mp hc)), if_neg hmem]
          rw [firstSeenOrder_congr es (id :: s₁) (id :: s₂) (by simp [h])]
      · simp only [firstSeenOrder, ht, if_neg ht]
        exact firstSeenOrder_congr es s₁ s₂ h
    | textDelta d => exact firstSeenOrder_congr es s₁ s₂ h
    | textDeltaBad => exact firstSeenOrder_congr es s₁ s₂ h
    | funcArgsDelta i d => exact firstSeenOrder_congr es s₁ s₂ h
    | funcArgsDeltaBad => exact firstSeenOrder_congr es s₁ s₂ h
    | itemAddedBad => exact firstSeenOrder_congr es s₁ s₂ h
    | itemDoneBad => exact firstSeenOrder_congr es s₁ s₂ h
    | completed u => exact firstSeenOrder_congr es s₁ s₂ h
    | completedBad => exact firstSeenOrder_congr es s₁ s₂ h
    | otherEvent => exact firstSeenOrder_congr es s₁ s₂ h

end ClaimC1

section ClaimC1

open Genai OpenAIResp

theorem firstSeenOrder_cons (seen : List String) (e : RespEvent)
    (es : List RespEvent) :
    firstSeenOrder seen (e :: es) =
      firstSeenOrder seen [e] ++
        firstSeenOrder (seen ++ firstSeenOrder seen [e]) es := by
  cases e with
  | itemAdded ty id c n =>
    by_cases ht : ty = "function_call"
    · simp only [firstSeenOrder, ht, if_pos]
      rw [firstSeenOrder_congr es (id :: seen) (seen ++ [id]) (by simp; tauto)]
      rfl
    · simp only [firstSeenOrder, ht, if_neg ht]
      simp [firstSeenOrder]
  | itemDone ty id c n a =>
    by_cases ht : ty = "function_call"
    · simp only [firstSeenOrder, ht, if_pos]
      by_cases hmem : id ∈ seen
      · rw [if_pos hmem, if_pos hmem]
        simp [firstSeenOrder]
      · rw [if_neg hmem, if_neg hmem]
        rw [firstSeenOrder_congr es (id :: seen) (seen ++ [id]) (by simp; tauto)]
        rfl
    · simp only [firstSeenOrder, ht, if_neg ht]
      simp [firstSeenOrder]
  | textDelta d => simp [firstSeenOrder]
  | textDeltaBad => simp [firstSeenOrder]
  | funcArgsDelta i d => simp [firstSeenOrder]
  | funcArgsDeltaBad => simp [firstSeenOrder]
  | itemAddedBad => simp [firstSeenOrder]
  | itemDoneBad => simp [firstSeenOrder]
  | completed u => simp [firstSeenOrder]
  | completedBad => simp [firstSeenOrder]
  | otherEvent => simp [firstSeenOrder]

/-- The registry invariant of the Responses stream state: an item id is in
the insertion-order list exactly when its builder is in the map. -/
def OrderMapInv {σ : Type} (s : RespState σ) : Prop :=
  ∀ id, id ∈ s.toolCallOrder ↔ (OpenAIResp.mapGet s.toolCallsMap id).isSome = true

theorem stepEvent_order_map {σ : Type} (feed : σ → String → σ × List thinkSegment)
    (s : RespState σ) (e : RespEvent) (hinv : OrderMapInv s) :
    (stepEvent feed s e).1.toolCallOrder =
      s.toolCallOrder ++ firstSeenOrder s.toolCallOrder [e] ∧
    OrderMapInv (stepEvent feed s e).1 := by
  cases e with
  | textDelta d =>
    rcases hf : feed s.parserState d with ⟨ps, segs⟩
    rcases he : emitTextSegments s.textContent s.thoughtContent segs with ⟨t, th, out⟩
    constructor
    · simp [stepEvent, hf, he, firstSeenOrder]
    · intro id
      simpa [stepEvent, hf, he] using hinv id
  | textDeltaBad =>
    exact ⟨by simp [stepEvent, firstSeenOrder], hinv⟩
  | funcArgsDelta i d =>
    cases hm : OpenAIResp.mapGet s.toolCallsMap i with
    | none =>
      constructor
      · simp [stepEvent, hm, firstSeenOrder]
      · intro id
        simpa [stepEvent, hm] using hinv id
    | some b =>
      constructor
      · simp [stepEvent, hm, firstSeenOrder]
      · intro id
        simp only [stepEvent, hm]
        rw [isSome_mapGetS_mapSetS, hinv id]
        constructor
        · exact Or.inr
        · rintro (h₂ | h₂)
          · subst h₂
            rw [hm]
            rfl
          · exact h₂
  | funcArgsDeltaBad =>
    exact ⟨by simp [stepEvent, firstSeenOrder], hinv⟩
  | itemAdded ty i c n =>
    by_cases ht : ty = "function_call"
    · constructor
      · simp [stepEvent, ht, firstSeenOrder]
      · intro id
        simp only [stepEvent, ht, if_pos]
        rw [List.mem_append, isSome_mapGetS_mapSetS, hinv id]
        simp
        tauto
    · exact ⟨by simp [stepEvent, ht, firstSeenOrder], by
        intro id
        simpa [stepEvent, ht] using hinv id⟩
  | itemAddedBad =>
    exact ⟨by simp [stepEvent, firstSeenOrder], hinv⟩
  | itemDone ty i c n a =>
    by_cases ht : ty = "function_call"
    · cases hm : OpenAIResp.mapGet s.toolCallsMap i with
      | some b =>
        have hmemi : i ∈ s.toolCallOrder := (hinv i).mpr (by rw [hm]; rfl)
        constructor
        · simp [stepEvent, ht, hm, firstSeenOrder, hmemi]
        · intro id
          simp only [stepEvent, ht, if_pos, hm]
          rw [isSome_mapGetS_mapSetS, hinv id]
          constructor
          · exact Or.inr
          · rintro (h₂ | h₂)
            · subst h₂
              rw [hm]
              rfl
            · exact h₂
      | none =>
        have hmemi : i ∉ s.toolCallOrder := by
          intro hc
          have := (hinv i).mp hc
          rw [hm] at this
          exact absurd this (by simp)
        constructor
        · simp [stepEvent, ht, hm, firstSeenOrder, hmemi]
        · intro id
          simp only [stepEvent, ht, if_pos, hm]
          rw [List.mem_append, isSome_mapGetS_mapSetS, hinv id]
          simp
          tauto
    · exact ⟨by simp [stepEvent, ht, firstSeenOrder], by
        intro id
        simpa [stepEvent, ht] using hinv id⟩
  | itemDoneBad =>
    exact ⟨by simp [stepEvent, firstSeenOrder], hinv⟩
  | completed u =>
    cases u with
    | none => exact ⟨by simp [stepEvent, firstSeenOrder], hinv⟩
    | some u₂ =>
      exact ⟨by simp [stepEvent, firstSeenOrder], by
        intro id
        simpa [stepEvent] using hinv id⟩
  | completedBad =>
    exact ⟨by simp [stepEvent, firstSeenOrder], hinv⟩
  | otherEvent =>
    exact ⟨by simp [stepEvent, firstSeenOrder], hinv⟩

end ClaimC1

section ClaimC1

open Genai OpenAIResp

theorem runResp_fst_cons {σ : Type} (feed : σ → String → σ × List thinkSegment)
    (s : RespState σ) (e : RespEvent) (es : List RespEvent) :
    (runResp feed s (e :: es)).1 = (runResp feed (stepEvent feed s e).1 es).1 := by
  simp only [runResp]

theorem runResp_order_inv {σ : Type} (feed : σ → String → σ × List thinkSegment) :
    ∀ (events : List RespEvent) (s : RespState σ), OrderMapInv s →
      ((runResp feed s events).1.toolCallOrder =
        s.toolCallOrder ++ firstSeenOrder s.toolCallOrder events) ∧
      OrderMapInv (runResp feed s events).1
  | [], s, hinv => ⟨by simp [runResp, firstSeenOrder], by simpa [runResp] using hinv⟩
  | e :: es, s, hinv => by
    obtain ⟨ho, hinv₁⟩ := stepEvent_order_map feed s e hinv
    obtain ⟨iho, ihinv⟩ := runResp_order_inv feed es (stepEvent feed s e).1 hinv₁
    rw [runResp_fst_cons]
    refine ⟨?_, ihinv⟩
    rw [iho, ho]
    conv_rhs => rw [firstSeenOrder_cons]
    rw [List.append_assoc]

end ClaimC1

/-- **C1.** Terminal aggregates preserve original block order.  Anthropic:
the emitted parts are invariant under any permutation of the intermediate
block map's representation, and the terminal aggregate's parts are exactly
the blocks walked in strictly increasing index order.  OpenAI Responses: the
standard tool calls of the terminal aggregate are walked in
`toolCallOrder`, which equals the first-seen insertion order of the
function-call items over the event stream (and every recorded id has a
builder), for any sequence of item-added/done/delta events, out-of-order
ones included. -/
theorem claim_C1_terminal_block_order :
    (∀ (jsonParse : String → Option Genai.ArgsMap)
        (b₁ b₂ : List (Int × Anthropic.blockState)),
      (b₁.map Prod.fst).Nodup → b₁.Perm b₂ →
      Anthropic.emitFinalParts jsonParse b₁ =
        Anthropic.emitFinalParts jsonParse b₂) ∧
    (∀ (jsonParse : String → Option Genai.ArgsMap)
        (events : List Anthropic.SSEEvent),
      (Anthropic.finalState events).blocks.Perm
        (sortBlocks (Anthropic.finalState events).blocks) ∧
      ((sortBlocks (Anthropic.finalState events).blocks).map Prod.fst).Sorted
        (· < ·) ∧
      (Anthropic.emitFinalResponse jsonParse
          (Anthropic.finalState events)).content.parts =
        (sortBlocks (Anthropic.finalState events).blocks).foldr
          (fun e acc => Anthropic.blockToParts jsonParse e.2 ++ acc) []) ∧
    (∀ {σ : Type} (feed : σ → String → σ × List OpenAIResp.thinkSegment)
        (s₀ : σ) (events : List OpenAIResp.RespEvent),
      (OpenAIResp.runResp feed { parserState := s₀ } events).1.toolCallOrder =
        OpenAIResp.firstSeenOrder [] events ∧
      (∀ id ∈ (OpenAIResp.runResp feed { parserState := s₀ }
          events).1.toolCallOrder,
        (OpenAIResp.mapGet (OpenAIResp.runResp feed { parserState := s₀ }
            events).1.toolCallsMap id).isSome = true)) := by
  refine ⟨?_, ?_, ?_⟩
  · intro jsonParse b₁ b₂ hnd hperm
    have hnd₂ : (b₂.map Prod.fst).Nodup := ((hperm.map Prod.fst).nodup_iff).mp hnd
    rw [emitFinalParts_eq_sorted jsonParse b₁ hnd,
      emitFinalParts_eq_sorted jsonParse b₂ hnd₂,
      sortBlocks_eq_of_perm b₁ b₂ hnd hperm]
  · intro jsonParse events
    have hnd := finalState_nodup events
    refine ⟨perm_sortBlocks _, strict_sorted_keys_sortBlocks _ hnd, ?_⟩
    show Anthropic.emitFinalParts jsonParse (Anthropic.finalState events).blocks = _
    exact emitFinalParts_eq_sorted jsonParse _ hnd
  · intro σ feed s₀ events
    have hinv : OrderMapInv ({ parserState := s₀ } : OpenAIResp.RespState σ) := by
      intro id
      simp [OpenAIResp.mapGet]
    obtain ⟨ho, hfin⟩ := runResp_order_inv feed events { parserState := s₀ } hinv
    refine ⟨?_, fun id hid => (hfin id).mp hid⟩
    simpa using ho

/-- Witness for C1: a concrete unordered block map emits identically after
permutation. -/
theorem claim_C1_witness :
    Anthropic.emitFinalParts (fun _ => none)
        [(1, { blockType := "text", text := "late" }),
         (0, { blockType := "text", text := "early" })] =
      Anthropic.emitFinalParts (fun _ => none)
        [(0, { blockType := "text", text := "early" }),
         (1, { blockType := "text", text := "late" })] :=
  claim_C1_terminal_block_order.1 (fun _ => none)
    [(1, { blockType := "text", text := "late" }),
     (0, { blockType := "text", text := "early" })]
    [(0, { blockType := "text", text := "early" }),
     (1, { blockType := "text", text := "late" })]
    (by decide) (List.Perm.swap _ _ _)

section ClaimC10

open Genai Anthropic

/-- Whether an SSE event is an explicit `error` event (decodable or not). -/
def isErrorEvent : Anthropic.SSEEvent → Bool
  | .errorEvent _ _ => true
  | .errorEventBad _ => true
  | _ => false

/-- Whether the decoded stream contains an explicit `error` event. -/
def hasErrorEvent (events : List Anthropic.SSEEvent) : Bool :=
  events.any isErrorEvent

/-- Whether the scanner ended with a non-cancellation read failure. -/
def isReadErrEnd : Anthropic.StreamEnd → Bool
  | .errRead _ => true
  | _ => false

/-- Whether a handler step terminated the stream with an error. -/
def isStepErr : Anthropic.StepResult → Bool
  | .ok _ _ => false
  | .err _ => true

/-- Whether the yielded sequence terminates with an error. -/
def endsWithError (ys : List (Except String Genai.LLMResponse)) : Bool :=
  match ys.getLast? with
  | some (.error _) => true
  | _ => false

theorem isStepErr_handleSSEEvent (s : StreamState) (e : SSEEvent) :
    isStepErr (handleSSEEvent s e) = isErrorEvent e := by
  cases e with
  | contentBlockDelta index delta =>
    show isStepErr (handleDelta s index delta) = false
    unfold handleDelta
    cases mapGet s.blocks index with
    | none => rfl
    | some bs => cases delta <;> rfl
  | messageDelta sr u => rfl
  | _ => rfl

theorem runEvents_err_isSome :
    ∀ (events : List SSEEvent) (s : StreamState),
      ((runEvents s events).2.2).isSome = hasErrorEvent events
  | [], s => rfl
  | e :: es, s => by
    cases hse : handleSSEEvent s e with
    | ok s₁ out =>
      have hne : isErrorEvent e = false := by
        rw [← isStepErr_handleSSEEvent s e, hse]
        rfl
      simp only [runEvents, hse, hasErrorEvent, List.any_cons, hne, Bool.false_or]
      cases hrec : runEvents s₁ es with
      | mk s₂ rest =>
        have := runEvents_err_isSome es s₁
        rw [hrec] at this
        exact this
    | err m =>
      have he : isErrorEvent e = true := by
        rw [← isStepErr_handleSSEEvent s e, hse]
        rfl
      simp [runEvents, hse, hasErrorEvent, he]

theorem endsWithError_map_ok (out : List LLMResponse) :
    endsWithError (out.map Except.ok) = false := by
  unfold endsWithError
  induction out with
  | nil => rfl
  | cons r rs ih =>
    cases rs with
    | nil => rfl
    | cons r₂ rs₂ => exact ih

end ClaimC10

/-- **C10.** The Anthropic SSE processor is total over arbitrary event
input: undecodable `message_start` / `content_block_start` /
`content_block_delta` / `message_delta` data lines are ignored, a delta for
an unknown block index is ignored, a `tool_use` block whose accumulated
argument JSON does not parse is emitted with an empty argument map — and
the yielded sequence terminates with an error exactly when the stream
contains an explicit `error` event or the scanner fails with a
non-cancellation read error. -/
theorem claim_C10_stream_error_totality :
    (∀ s : Anthropic.StreamState,
      Anthropic.handleSSEEvent s .messageStartBad = .ok s [] ∧
      Anthropic.handleSSEEvent s .contentBlockStartBad = .ok s [] ∧
      Anthropic.handleSSEEvent s .contentBlockDeltaBad = .ok s [] ∧
      Anthropic.handleSSEEvent s .messageDeltaBad = .ok s []) ∧
    (∀ (s : Anthropic.StreamState) (index : Int) (delta : Anthropic.DeltaKind),
      Anthropic.mapGet s.blocks index = none →
      Anthropic.handleSSEEvent s (.contentBlockDelta index delta) = .ok s []) ∧
    (∀ (jsonParse : String → Option Genai.ArgsMap) (bs : Anthropic.blockState),
      bs.blockType = "tool_use" → jsonParse bs.toolArgs = none →
      Anthropic.blockToParts jsonParse bs =
        [{ functionCall := some ⟨bs.toolID, bs.toolName, Genai.emptyArgs⟩ }]) ∧
    (∀ (jsonParse : String → Option Genai.ArgsMap)
        (events : List Anthropic.SSEEvent) (ending : Anthropic.StreamEnd),
      endsWithError (Anthropic.processStream jsonParse events ending) =
        (hasErrorEvent events || isReadErrEnd ending)) := by
  refine ⟨?_, ?_, ?_, ?_⟩
  · intro s
    exact ⟨rfl, rfl, rfl, rfl⟩
  · intro s index delta h
    show Anthropic.handleDelta s index delta = .ok s []
    unfold Anthropic.handleDelta
    rw [h]
  · intro jsonParse bs h₁ h₂
    by_cases ha : bs.toolArgs = "" <;>
      simp [Anthropic.blockToParts, h₁, h₂, ha, Genai.emptyArgs]
  · intro jsonParse events ending
    unfold Anthropic.processStream
    cases hrun : Anthropic.runEvents {} events with
    | mk s rest =>
      obtain ⟨out, err⟩ := rest
      have herr : err.isSome = hasErrorEvent events := by
        have := runEvents_err_isSome events {}
        rw [hrun] at this
        exact this
      cases err with
      | some m =>
        simp only [Option.isSome_some] at herr
        simp [endsWithError, List.getLast?_concat, ← herr]
      | none =>
        simp only [Option.isSome_none] at herr
        cases ending with
        | eof =>
          simp [endsWithError, List.getLast?_concat, ← herr, isReadErrEnd]
        | errCanceled =>
          simp [endsWithError_map_ok, ← herr, isReadErrEnd]
        | errRead m =>
          simp [endsWithError, List.getLast?_concat, ← herr, isReadErrEnd]

/-- Witness for C10 at a concrete state, block and stream. -/
theorem claim_C10_witness :
    Anthropic.handleSSEEvent { blocks := [] } (.contentBlockDelta 5 (.textDelta "x")) =
      .ok { blocks := [] } [] ∧
    Anthropic.blockToParts (fun _ => none)
        { blockType := "tool_use", toolID := "t1", toolName := "calc", toolArgs := "LBRACE" } =
      [{ functionCall := some ⟨"t1", "calc", Genai.emptyArgs⟩ }] := by
  constructor
  · exact claim_C10_stream_error_totality.2.1 { blocks := [] } 5 (.textDelta "x") (by rfl)
  · exact claim_C10_stream_error_totality.2.2.1 (fun _ => none)
      { blockType := "tool_use", toolID := "t1", toolName := "calc", toolArgs := "LBRACE" }
      (by rfl) (by rfl)

section ClaimC5

open Genai Anthropic

/-- The shape the spec requires of a yielded sequence: zero or more ok
partial increments followed by exactly one last element that is either an
error or a terminal aggregate. -/
def StreamShape (ys : List (Except String Genai.LLMResponse)) : Prop :=
  ∃ (ps : List Genai.LLMResponse) (last : Except String Genai.LLMResponse),
    ys = ps.map Except.ok ++ [last] ∧
    (∀ r ∈ ps, r.incremental = true ∧ r.turnComplete = false) ∧
    (∀ v, last = Except.ok v → v.incremental = false ∧ v.turnComplete = true)

theorem handleSSEEvent_out_partial (s : StreamState) (e : SSEEvent)
    (s₁ : StreamState) (out : List LLMResponse)
    (h : handleSSEEvent s e = .ok s₁ out) :
    ∀ r ∈ out, r.incremental = true ∧ r.turnComplete = false := by
  cases e with
  | contentBlockDelta index delta =>
    replace h : handleDelta s index delta = .ok s₁ out := h
    unfold handleDelta at h
    cases hm : mapGet s.blocks index with
    | none =>
      rw [hm] at h
      cases h
      simp
    | some bs =>
      rw [hm] at h
      cases delta <;> cases h <;> simp [partialResp]
  | messageStart u => cases h; simp
  | messageStartBad => cases h; simp
  | contentBlockStart i b t n => cases h; simp
  | contentBlockStartBad => cases h; simp
  | contentBlockDeltaBad => cases h; simp
  | contentBlockStop i => cases h; simp
  | messageDelta sr u => cases h; simp
  | messageDeltaBad => cases h; simp
  | messageStop => cases h; simp
  | ping => cases h; simp
  | otherEvent => cases h; simp
  | errorEvent t m => cases h
  | errorEventBad r => cases h

theorem runEvents_out_partial :
    ∀ (events : List SSEEvent) (s : StreamState),
      ∀ r ∈ (runEvents s events).2.1,
        r.incremental = true ∧ r.turnComplete = false
  | [], s => by simp [runEvents]
  | e :: es, s => by
    cases hse : handleSSEEvent s e with
    | ok s₁ out =>
      simp only [runEvents, hse]
      cases hrec : runEvents s₁ es with
      | mk s₂ rest =>
        intro r hr
        rcases List.mem_append.mp hr with h | h
        · exact handleSSEEvent_out_partial s e s₁ out hse r h
        · have := runEvents_out_partial es s₁
          rw [hrec] at this
          exact this r h
    | err m => simp [runEvents, hse]

end ClaimC5

/-- **C5 (counterexample).** The claim fails as stated: an Anthropic stream
whose scanner fails with a cancellation error ends after zero or more
partials with neither a terminal aggregate nor an error — at the concrete
input (no events, cancelled read) the yielded sequence is empty, so it is
not of the partials-then-terminal-or-error shape. -/
theorem claim_C5_counterexample :
    ¬ StreamShape (Anthropic.processStream (fun _ => none) [] .errCanceled) := by
  rintro ⟨ps, last, heq, _, _⟩
  have h₀ : Anthropic.processStream (fun _ => none) [] .errCanceled =
      ([] : List (Except String Genai.LLMResponse)) := rfl
  rw [h₀] at heq
  exact absurd heq.symm (by simp)

section ClaimC5

open Genai Anthropic OpenAIResp

theorem emitTextSegments_out_partial :
    ∀ (segs : List thinkSegment) (t th : String),
      ∀ r ∈ (emitTextSegments t th segs).2.2,
        r.incremental = true ∧ r.turnComplete = false
  | [], t, th => by simp [emitTextSegments]
  | seg :: rest, t, th => by
    unfold emitTextSegments
    by_cases hs : seg.text = ""
    · simp only [hs, if_pos]
      exact emitTextSegments_out_partial rest t th
    · simp only [hs, if_neg hs]
      cases hrec : emitTextSegments
          (if seg.thought then t else t ++ seg.text)
          (if seg.thought then th ++ seg.text else th) rest with
      | mk t₁ rest₁ =>
        obtain ⟨th₁, out₁⟩ := rest₁
        intro r hr
        rcases List.mem_cons.mp hr with h | h
        · subst h
          exact ⟨rfl, rfl⟩
        · have := emitTextSegments_out_partial rest
            (if seg.thought then t else t ++ seg.text)
            (if seg.thought then th ++ seg.text else th)
          rw [hrec] at this
          exact this r h

theorem stepEvent_out_partial {σ : Type} (feed : σ → String → σ × List thinkSegment)
    (s : RespState σ) (e : RespEvent) :
    ∀ r ∈ (stepEvent feed s e).2,
      r.incremental = true ∧ r.turnComplete = false := by
  intro r hr
  cases e with
  | textDelta d =>
    simp only [stepEvent] at hr
    rcases hf : feed s.parserState d with ⟨ps, segs⟩
    rw [hf] at hr
    rcases hemit : emitTextSegments s.textContent s.thoughtContent segs with ⟨t, th, out⟩
    rw [hemit] at hr
    have := emitTextSegments_out_partial segs s.textContent s.thoughtContent
    rw [hemit] at this
    exact this r hr
  | funcArgsDelta i d =>
    simp only [stepEvent] at hr
    cases hm : mapGet s.toolCallsMap i <;> rw [hm] at hr <;> simp at hr
  | itemAdded ty i c n =>
    simp only [stepEvent] at hr
    by_cases h : ty = "function_call" <;> simp [h] at hr
  | itemDone ty i c n a =>
    simp only [stepEvent] at hr
    by_cases h : ty = "function_call"
    · rw [if_pos h] at hr
      cases hm : mapGet s.toolCallsMap i <;> rw [hm] at hr <;> simp at hr
    · rw [if_neg h] at hr
      simp at hr
  | completed u =>
    simp only [stepEvent] at hr
    cases u <;> simp at hr
  | textDeltaBad => simp [stepEvent] at hr
  | funcArgsDeltaBad => simp [stepEvent] at hr
  | itemAddedBad => simp [stepEvent] at hr
  | itemDoneBad => simp [stepEvent] at hr
  | completedBad => simp [stepEvent] at hr
  | otherEvent => simp [stepEvent] at hr

theorem runResp_out_partial {σ : Type} (feed : σ → String → σ × List thinkSegment) :
    ∀ (events : List RespEvent) (s : RespState σ),
      ∀ r ∈ (runResp feed s events).2,
        r.incremental = true ∧ r.turnComplete = false
  | [], s => by simp [runResp]
  | e :: es, s => by
    cases hse : stepEvent feed s e with
    | mk s₁ out =>
      simp only [runResp, hse]
      cases hrec : runResp feed s₁ es with
      | mk s₂ rest =>
        intro r hr
        rcases List.mem_append.mp hr with h | h
        · have := stepEvent_out_partial feed s e
          rw [hse] at this
          exact this r h
        · have := runResp_out_partial feed es s₁
          rw [hrec] at this
          exact this r h

theorem streamShape_final (ps : List LLMResponse) (v : LLMResponse)
    (h : ∀ r ∈ ps, r.incremental = true ∧ r.turnComplete = false)
    (hv : v.incremental = false ∧ v.turnComplete = true) :
    StreamShape (ps.map Except.ok ++ [Except.ok v]) := by
  refine ⟨ps, Except.ok v, rfl, h, ?_⟩
  intro v₂ hv₂
  cases hv₂
  exact hv

theorem streamShape_error (ps : List LLMResponse) (m : String)
    (h : ∀ r ∈ ps, r.incremental = true ∧ r.turnComplete = false) :
    StreamShape (ps.map Except.ok ++ [Except.error m]) := by
  refine ⟨ps, Except.error m, rfl, h, ?_⟩
  intro v₂ hv₂
  cases hv₂

theorem streamShape_append_final (ps₁ ps₂ : List LLMResponse) (v : LLMResponse)
    (h₁ : ∀ r ∈ ps₁, r.incremental = true ∧ r.turnComplete = false)
    (h₂ : ∀ r ∈ ps₂, r.incremental = true ∧ r.turnComplete = false)
    (hv : v.incremental = false ∧ v.turnComplete = true) :
    StreamShape (ps₁.map Except.ok ++ ps₂.map Except.ok ++ [Except.ok v]) := by
  have := streamShape_final (ps₁ ++ ps₂) v ?_ hv
  · rwa [List.map_append] at this
  · intro r hr
    rcases List.mem_append.mp hr with h | h
    · exact h₁ r h
    · exact h₂ r h

end ClaimC5

/-- **C5 (amended).** For every decoded SSE input and scanner ending, the
Anthropic adapter's yielded sequence is zero or more partial increments
(`Partial = true`, `TurnComplete = false`) followed by exactly one terminal
aggregate (`Partial = false`, `TurnComplete = true`) or one terminating
error, EXCEPT that a stream whose scanner fails due to cancellation (and
that hit no explicit error event) ends silently after its partials, with
neither terminal nor error.  Non-streaming `generate` always yields exactly
one element.  The OpenAI Responses stream processor has the
partials-then-terminal-or-error shape for every ending, cancellation
included. -/
theorem claim_C5_amended_yield_shape :
    (∀ (jsonParse : String → Option Genai.ArgsMap)
        (events : List Anthropic.SSEEvent) (ending : Anthropic.StreamEnd),
      hasErrorEvent events = true ∨ ending ≠ .errCanceled →
      StreamShape (Anthropic.processStream jsonParse events ending)) ∧
    (∀ (jsonParse : String → Option Genai.ArgsMap)
        (events : List Anthropic.SSEEvent),
      hasErrorEvent events = false →
      ∀ r ∈ Anthropic.processStream jsonParse events .errCanceled,
        ∃ v, r = Except.ok v ∧ v.incremental = true ∧ v.turnComplete = false) ∧
    (∀ (jsonParse : String → Option Genai.ArgsMap) (req : Genai.LLMRequest)
        (modelName : String) (http : Anthropic.GenHTTP),
      ∃ y, Anthropic.generate jsonParse req modelName http = [y] ∧
        ∀ v, y = Except.ok v → v.incremental = false ∧ v.turnComplete = true) ∧
    (∀ {σ : Type} (feed : σ → String → σ × List OpenAIResp.thinkSegment)
        (flush : σ → List OpenAIResp.thinkSegment)
        (parseVendor : String → List OpenAIResp.VendorCall × String)
        (parseArgs : String → Genai.ArgsMap) (s₀ : σ)
        (events : List OpenAIResp.RespEvent) (ending : Anthropic.StreamEnd),
      StreamShape (OpenAIResp.processResponsesStream feed flush parseVendor
        parseArgs s₀ events ending)) := by
  refine ⟨?_, ?_, ?_, ?_⟩
  · intro jsonParse events ending hcond
    cases hrun : Anthropic.runEvents {} events with
    | mk s rest =>
      obtain ⟨out, err⟩ := rest
      have hpart : ∀ r ∈ out, r.incremental = true ∧ r.turnComplete = false := by
        have := runEvents_out_partial events {}
        rw [hrun] at this
        exact this
      have herr : err.isSome = hasErrorEvent events := by
        have := runEvents_err_isSome events {}
        rw [hrun] at this
        exact this
      simp only [Anthropic.processStream, hrun]
      cases err with
      | some m => exact streamShape_error out m hpart
      | none =>
        simp only [Option.isSome_none] at herr
        cases ending with
        | eof =>
          exact streamShape_final out (Anthropic.emitFinalResponse jsonParse s)
            hpart ⟨rfl, rfl⟩
        | errCanceled =>
          rcases hcond with h | h
          · rw [← herr] at h
            exact absurd h (by simp)
          · exact absurd rfl h
        | errRead m => exact streamShape_error out _ hpart
  · intro jsonParse events hne r hr
    cases hrun : Anthropic.runEvents {} events with
    | mk s rest =>
      obtain ⟨out, err⟩ := rest
      have hpart : ∀ r ∈ out, r.incremental = true ∧ r.turnComplete = false := by
        have := runEvents_out_partial events {}
        rw [hrun] at this
        exact this
      have herr : err.isSome = hasErrorEvent events := by
        have := runEvents_err_isSome events {}
        rw [hrun] at this
        exact this
      rw [hne] at herr
      cases err with
      | some m => exact absurd herr (by simp)
      | none =>
        simp only [Anthropic.processStream, hrun] at hr
        obtain ⟨v, hv, hvr⟩ := List.mem_map.mp hr
        exact ⟨v, hvr.symm, hpart v hv⟩
  · intro jsonParse req modelName http
    unfold Anthropic.generate
    cases hconv : Anthropic.toAnthropicRequest req modelName with
    | error e => exact ⟨Except.error e, rfl, by simp⟩
    | ok ar =>
      cases http with
      | netErr m => exact ⟨Except.error m, rfl, by simp⟩
      | readErr m => exact ⟨Except.error _, rfl, by simp⟩
      | resp status body =>
        dsimp only
        by_cases hs : status ≠ 200
        · rw [if_pos hs]
          exact ⟨Except.error _, rfl, by simp⟩
        · rw [if_neg hs]
          cases body with
          | error m => exact ⟨Except.error _, rfl, by simp⟩
          | ok triple =>
            obtain ⟨blocks, stopReason, usage⟩ := triple
            refine ⟨Except.ok _, rfl, ?_⟩
            intro v hv
            cases hv
            exact ⟨rfl, rfl⟩
  · intro σ feed flush parseVendor parseArgs s₀ events ending
    cases hrun : OpenAIResp.runResp feed { parserState := s₀ } events with
    | mk s out =>
      have hpart : ∀ r ∈ out, r.incremental = true ∧ r.turnComplete = false := by
        have := runResp_out_partial feed events { parserState := s₀ }
        rw [hrun] at this
        exact this
      simp only [OpenAIResp.processResponsesStream, hrun]
      cases ending with
      | errCanceled => exact streamShape_error out _ hpart
      | errRead m => exact streamShape_error out _ hpart
      | eof =>
        rcases hemit : OpenAIResp.emitTextSegments s.textContent s.thoughtContent
            (flush s.parserState) with ⟨t, th, out₂⟩
        have hpart₂ : ∀ r ∈ out₂, r.incremental = true ∧ r.turnComplete = false := by
          have := emitTextSegments_out_partial (flush s.parserState)
            s.textContent s.thoughtContent
          rw [hemit] at this
          exact this
        dsimp only
        exact streamShape_append_final out out₂ _ hpart hpart₂ ⟨rfl, rfl⟩

/-- Witness for C5 at concrete streams. -/
theorem claim_C5_witness :
    (hasErrorEvent [] = true ∨ (Anthropic.StreamEnd.eof ≠ .errCanceled)) ∧
    StreamShape (Anthropic.processStream (fun _ => none) [] .eof) := by
  refine ⟨Or.inr (by decide), ?_⟩
  exact claim_C5_amended_yield_shape.1 (fun _ => none) [] .eof (Or.inr (by decide))
